import Mathlib

set_option maxRecDepth 100000

/-!
# Verification of the blocked sequence set with static index

A shallow embedding of the storage core of this repository: `Block` and
`BlockedSequenceSet` (Assignment4: `main.cpp`, `BlockedSequenceSet.h`),
the one-level static index of `BPlusTree` (Assignment4: `BPlusTree.cpp`),
and the binary search `simpleIndex::findBlock` (Assignment3:
`SimpleIndex.cpp`).

Records are comma-separated byte strings, modelled as `List Char`.  The
primary key of a record is its prefix up to (excluding) the first comma,
compared lexicographically exactly as `std::string` comparison does;
Mathlib's lexicographic linear order on `List Char` coincides with it.
C++ `int` quantities (block sizes, byte counts, block numbers) are
modelled as `Int`; none of the verified code paths can overflow a
machine int on the inputs considered, so wrap-around is not modelled.
-/

/-- A record: the byte string stored in a block (C++ `std::string`). -/
abbrev Rec : Type := List Char

/-- A primary key: the first comma-separated field of a record. -/
abbrev Key : Type := List Char

/-- `rec.substr(0, rec.find(','))`: everything before the first comma,
the whole string when there is no comma. -/
def extractKey (r : Rec) : Key :=
  r.takeWhile (fun c => c ≠ ',')

/-- Comparison of records by extracted key (non-strict). -/
def recLe (a b : Rec) : Prop := extractKey a ≤ extractKey b

instance : DecidableRel recLe := fun a b =>
  inferInstanceAs (Decidable (extractKey a ≤ extractKey b))

instance : IsTotal Rec recLe := ⟨fun a b => le_total (extractKey a) (extractKey b)⟩

instance : IsTrans Rec recLe := ⟨fun _ _ _ h1 h2 => le_trans h1 h2⟩

instance : IsRefl Rec recLe := ⟨fun _ => le_refl _⟩

/-- `Block` (Assignment4 `Block.h` / the `Block` member functions compiled
into `main.cpp`): a fixed-capacity container of variable-length records. -/
structure Block where
  RBN : Int
  prevRBN : Int
  nextRBN : Int
  blockSize : Int
  usedBytes : Int
  records : List Rec
deriving Repr, DecidableEq

/-- `Block::Block(int rbn_, int maxBytes)`: empty, unlinked block. -/
def Block.make (rbn maxBytes : Int) : Block :=
  { RBN := rbn, prevRBN := -1, nextRBN := -1,
    blockSize := maxBytes, usedBytes := 0, records := [] }

/-- `Block::AddRecord`: appends unconditionally (the source comments it
"no space check") and always returns `true`. -/
def Block.AddRecord (b : Block) (rec : Rec) : Block × Bool :=
  ({ b with records := b.records ++ [rec],
            usedBytes := b.usedBytes + rec.length }, true)

/-- Key of the last record of a record list, `""` when empty. -/
def highestKeyOf (recs : List Rec) : Key :=
  match recs.getLast? with
  | none => []
  | some r => extractKey r

/-- `Block::getHighestKey`: key of the last record, `""` when empty. -/
def Block.getHighestKey (b : Block) : Key :=
  highestKeyOf b.records

/-- The list-level loop of `Block::InsertSorted`: advance while the
existing record's key is `<` the new key, insert there. -/
def insertSortedRecs (k : Key) (rec : Rec) : List Rec → List Rec
  | [] => [rec]
  | x :: xs =>
    if extractKey x < k then x :: insertSortedRecs k rec xs
    else rec :: x :: xs

/-- `Block::InsertSorted`: sorted insert by key, no capacity check. -/
def Block.InsertSorted (b : Block) (rec : Rec) : Block :=
  { b with records := insertSortedRecs (extractKey rec) rec b.records,
           usedBytes := b.usedBytes + rec.length }

/-- `Block::HasSpace`: `usedBytes + rec.size() <= blockSize`. -/
def Block.HasSpace (b : Block) (rec : Rec) : Bool :=
  decide (b.usedBytes + (rec.length : Int) ≤ b.blockSize)

/-- `Block::GetFreeSpace`: `blockSize - usedBytes`. -/
def Block.GetFreeSpace (b : Block) : Int := b.blockSize - b.usedBytes

/-- `Block::GetRecordCount` (as a `Nat`; the C++ `int` is never negative). -/
def Block.GetRecordCount (b : Block) : Nat := b.records.length

/-- The record-list loop of `Block::DeleteRecord`: remove the first
record whose key matches, reporting the removed record's length. -/
def deleteRecs (k : Key) : List Rec → Option (List Rec × Nat)
  | [] => none
  | x :: xs =>
    if extractKey x = k then some (xs, x.length)
    else (deleteRecs k xs).map fun p => (x :: p.1, p.2)

/-- `Block::DeleteRecord`: delete first match, decrement `usedBytes`. -/
def Block.DeleteRecord (b : Block) (k : Key) : Block × Bool :=
  match deleteRecs k b.records with
  | none => (b, false)
  | some (ys, n) =>
    ({ b with records := ys, usedBytes := b.usedBytes - (n : Int) }, true)

/-- `BlockedSequenceSet` (Assignment4): an ordered collection of blocks.
The filename only matters for I/O, which is outside the model. -/
structure BlockedSequenceSet where
  blocks : List Block
deriving Repr, DecidableEq

/-- Apply `f` to the last element (`blocks.back()` mutation). -/
def updateLast (f : Block → Block) : List Block → List Block
  | [] => []
  | [b] => [f b]
  | b :: bs => b :: updateLast f bs

/-- `BlockedSequenceSet::AddRecord`: append a fresh 512-byte block when
there is none or the last one's free space is below the record length,
then `AddRecord` into the last block. -/
def BlockedSequenceSet.AddRecord (s : BlockedSequenceSet) (rec : Rec) :
    BlockedSequenceSet :=
  let needNew : Bool :=
    match s.blocks.getLast? with
    | none => true
    | some b => decide (b.GetFreeSpace < (rec.length : Int))
  let bs := if needNew then s.blocks ++ [Block.make s.blocks.length 512] else s.blocks
  ⟨updateLast (fun b => (b.AddRecord rec).1) bs⟩

/-- The block-scanning loop of `BlockedSequenceSet::Insert`: the first
block that is empty or whose highest key is `>=` the new key receives a
sorted insert; `none` when no block qualifies. -/
def insertIntoBlocks (k : Key) (rec : Rec) : List Block → Option (List Block)
  | [] => none
  | b :: bs =>
    if b.GetRecordCount = 0 ∨ k ≤ b.getHighestKey then
      some (b.InsertSorted rec :: bs)
    else (insertIntoBlocks k rec bs).map (b :: ·)

/-- `BlockedSequenceSet::Insert`: sorted insert into the first matching
block, else into the last block, creating a fresh 512-byte block when
the set is empty or the last block lacks space. -/
def BlockedSequenceSet.Insert (s : BlockedSequenceSet) (rec : Rec) :
    BlockedSequenceSet :=
  let k := extractKey rec
  match insertIntoBlocks k rec s.blocks with
  | some bs => ⟨bs⟩
  | none =>
    let needNew : Bool :=
      match s.blocks.getLast? with
      | none => true
      | some b => ! b.HasSpace rec
    let bs := if needNew then s.blocks ++ [Block.make s.blocks.length 512] else s.blocks
    ⟨updateLast (fun b => b.InsertSorted rec) bs⟩

/-- The record loop of `BlockedSequenceSet::Search`: first record whose
extracted key equals the target. -/
def searchRecs (k : Key) : List Rec → Option Rec
  | [] => none
  | x :: xs => if extractKey x = k then some x else searchRecs k xs

/-- The block loop of `BlockedSequenceSet::Search`. -/
def searchBlocks (k : Key) : List Block → Option Rec
  | [] => none
  | b :: bs =>
    match searchRecs k b.records with
    | some r => some r
    | none => searchBlocks k bs

/-- `BlockedSequenceSet::Search`: full linear scan; `some r` models
`true` with `outRecord = r`, `none` models `false`. -/
def BlockedSequenceSet.Search (s : BlockedSequenceSet) (k : Key) : Option Rec :=
  searchBlocks k s.blocks

/-- The block loop of `BlockedSequenceSet::Delete`: delegate to the
first block whose `DeleteRecord` succeeds. -/
def deleteFromBlocks (k : Key) : List Block → Option (List Block)
  | [] => none
  | b :: bs =>
    let res := b.DeleteRecord k
    if res.2 then some (res.1 :: bs)
    else (deleteFromBlocks k bs).map (b :: ·)

/-- `BlockedSequenceSet::Delete`: returns the success flag and the
resulting state. -/
def BlockedSequenceSet.Delete (s : BlockedSequenceSet) (k : Key) :
    Bool × BlockedSequenceSet :=
  match deleteFromBlocks k s.blocks with
  | none => (false, s)
  | some bs => (true, ⟨bs⟩)

/-- Comparator used by `std::sort` in `BPlusTree::BuildStaticIndex`:
`a.key < b.key` on index entries `(highest key, child RBN)`. -/
def entryLt (a b : Key × Int) : Prop := a.1 < b.1

instance : DecidableRel entryLt := fun a b =>
  inferInstanceAs (Decidable (a.1 < b.1))

/-- `BPlusTree::BuildStaticIndex`: one entry `(highest key, RBN)` per
non-empty block, then sorted by key.  `std::sort` leaves the order of
equal keys unspecified; `insertionSort` realizes one valid outcome, and
every use below either has strictly sorted input (where all correct
sorts agree and are the identity) or concrete distinct keys. -/
def BuildStaticIndex (s : BlockedSequenceSet) : List (Key × Int) :=
  List.insertionSort entryLt
    (s.blocks.filterMap fun b =>
      if b.GetRecordCount = 0 then none else some (b.getHighestKey, b.RBN))

/-- The root-entry loop of `BPlusTree::Search`: RBN of the first entry
whose key is `>=` the search key, else the last entry's RBN; `-1` on an
empty entry list. -/
def chooseTarget (k : Key) : List (Key × Int) → Int
  | [] => -1
  | e :: es =>
    if k ≤ e.1 then e.2
    else
      match es with
      | [] => e.2
      | e2 :: es2 => chooseTarget k (e2 :: es2)

/-- The within-block loop of `BPlusTree::Search`: linear scan that
stops (reporting absence) at the first record key strictly greater than
the target. -/
def scanBlockRecs (k : Key) : List Rec → Option Rec
  | [] => none
  | r :: rs =>
    let rk := extractKey r
    if rk = k then some r
    else if k < rk then none
    else scanBlockRecs k rs

/-- The block-locating loop of `BPlusTree::Search`: first block whose
RBN equals the target. -/
def findBlockByRBN (t : Int) : List Block → Option Block
  | [] => none
  | b :: bs => if b.RBN = t then some b else findBlockByRBN t bs

/-- `BPlusTree::Search` after `BuildStaticIndex` produced `entries`:
falls back to the full scan when no index was built (empty entries,
i.e. `rootNodeID == -1`), otherwise dispatches through the root node to
a single block. -/
def BPlusTreeSearch (s : BlockedSequenceSet) (entries : List (Key × Int))
    (k : Key) : Option Rec :=
  match entries with
  | [] => s.Search k
  | e :: es =>
    match findBlockByRBN (chooseTarget k (e :: es)) s.blocks with
    | none => none
    | some b => scanBlockRecs k b.records

/-- `simpleIndex::findBlock`'s binary-search loop (Assignment3
`SimpleIndex.cpp`): `left`/`right` are C++ `int`s; `mid = left +
(right - left) / 2` (the difference is non-negative whenever the body
runs). Out-of-range vector accesses cannot occur in the verified uses;
`getD` supplies an arbitrary default. -/
def findBlockLoop (keys : List Nat) (rbns : List Int) (k : Nat)
    (left right : Int) : Int :=
  if hlr : left ≤ right then
    let mid : Int := left + (((right - left).toNat / 2 : Nat) : Int)
    if k ≤ keys.getD mid.toNat 0 then
      if mid = 0 ∨ keys.getD (mid - 1).toNat 0 < k then
        rbns.getD mid.toNat (-1)
      else
        findBlockLoop keys rbns k left (mid - 1)
    else
      findBlockLoop keys rbns k (mid + 1) right
  else
    -1
termination_by (right + 1 - left).toNat
decreasing_by
  · omega
  · omega

/-- `simpleIndex::findBlock(key)`: binary search over the parallel
vectors `highestKeys`/`RBN`; returns `-1` ("key not found") when the
loop exhausts. -/
def simpleFindBlock (keys : List Nat) (rbns : List Int) (k : Nat) : Int :=
  findBlockLoop keys rbns k 0 ((keys.length : Int) - 1)

/-- Modelled from the spec: `FindBlock` as §4.3 words it — "binary
search for the left-most entry whose key is >= the lookup key", here as
the equivalent left-to-right linear scan over the parallel vectors.
(The spec's additional exceeds-all fallback to the block with the
globally highest key is exactly what the code lacks; see the C3
theorems.) -/
def findBlockSpec (k : Nat) : List Nat → List Int → Int
  | a :: as, r :: rs => if k ≤ a then r else findBlockSpec k as rs
  | _, _ => -1

/-- One driver-level mutation of a `BlockedSequenceSet`. -/
inductive Op where
  | add (rec : Rec)
  | ins (rec : Rec)
  | del (k : Key)
deriving Repr, DecidableEq

/-- Whether an operation is a sorted-path `Insert`. -/
def Op.isIns : Op → Bool
  | .ins _ => true
  | _ => false

/-- Whether an operation is a bulk `AddRecord` or a `Delete`. -/
def Op.isAddOrDel : Op → Bool
  | .ins _ => false
  | _ => true

/-- The record length attached to an operation (0 for deletes). -/
def Op.recLen : Op → Nat
  | .add r => r.length
  | .ins r => r.length
  | .del _ => 0

/-- Apply one operation to a state. -/
def stepOp (s : BlockedSequenceSet) : Op → BlockedSequenceSet
  | .add r => s.AddRecord r
  | .ins r => s.Insert r
  | .del k => (s.Delete k).2

/-- Run a sequence of operations from the freshly constructed (empty)
sequence set. -/
def runOps (ops : List Op) : BlockedSequenceSet :=
  ops.foldl stepOp ⟨[]⟩

/-- Sum of the byte lengths of a list of records, as `Int` (the
quantity the spec's capacity invariant compares with `used_bytes`). -/
def sumLen (recs : List Rec) : Int :=
  ((recs.map List.length).sum : Nat)

/-- Whether an operation is a `Delete`. -/
def Op.isDel : Op → Bool
  | .del _ => true
  | _ => false

/-- Inter-block separation in storage order: every record of the later
block has key strictly above the earlier block's highest key. -/
def sepBlocks (b1 b2 : Block) : Prop :=
  ∀ r ∈ b2.records, b1.getHighestKey < extractKey r

/-- Invariant of sequence sets populated only through `Insert`: every
block is non-empty with records sorted by key, and blocks are strictly
separated in storage order. -/
def GoodBlocks (bs : List Block) : Prop :=
  (∀ b ∈ bs, b.records ≠ [] ∧ b.records.Sorted recLe) ∧ bs.Pairwise sepBlocks

/-- The blocks carry consecutive RBNs starting at `n` (position in the
collection equals RBN when `n = 0`). -/
def rbnFrom (n : Int) : List Block → Prop
  | [] => True
  | b :: bs => b.RBN = n ∧ rbnFrom (n + 1) bs

/-- A history consisting only of `Insert` operations. -/
@[reducible]
def InsertOnly (ops : List Op) : Prop := ∀ op ∈ ops, op.isIns = true

/-! ### Concrete data for witnesses and counterexamples

Records below mirror the repository's CSV rows (`zip,place,...`): the
key is the field before the first comma; paddings bring the byte sizes
to what a 512-byte block scenario needs. -/

/-- 303-byte record with key `"10"` (bulk-load counterexamples). -/
def cxr1 : Rec := '1' :: '0' :: ',' :: List.replicate 300 'a'

/-- 209-byte record with key `"05"`; together with `cxr1` it fills a
512-byte block exactly. -/
def cxr2 : Rec := '0' :: '5' :: ',' :: List.replicate 206 'b'

/-- 4-byte record with key `"20"`; overflows into a second block. -/
def cxr3 : Rec := ['2', '0', ',', 'x']

/-- A second record with key `"10"`, inserted via the sorted path. -/
def cxr4 : Rec := ['1', '0', ',', 'z', 'z']

/-- The lookup key `"10"`. -/
def key10 : Key := ['1', '0']

/-- A bulk-load history leaving block 0 unsorted (`10` before `05`). -/
def cxOps : List Op := [Op.add cxr1, Op.add cxr2, Op.add cxr3]

/-- The state reached by `cxOps`. -/
def cxState : BlockedSequenceSet := runOps cxOps

/-- 301-byte record with key `"2"`. -/
def ovr1 : Rec := '2' :: ',' :: List.replicate 299 'c'

/-- 301-byte record with key `"3"`. -/
def ovr2 : Rec := '3' :: ',' :: List.replicate 299 'd'

/-- 301-byte record with key `"1"`. -/
def ovr3 : Rec := '1' :: ',' :: List.replicate 299 'e'

/-- Sorted-path history overflowing block 0 past its 512 bytes. -/
def ovOps : List Op := [Op.ins ovr1, Op.ins ovr2, Op.ins ovr3]

/-- Two sorted-path inserts: blocks 0 and 1 hold keys `2` and `3`. -/
def ovState2 : BlockedSequenceSet := runOps [Op.ins ovr1, Op.ins ovr2]

/-- Small record with key `"1"`, below every key of `ovState2`. -/
def wSmall : Rec := ['1', ',', 'z', 'z']

/-- Block 0 of `ovState2`. -/
def wb0 : Block := ovState2.blocks.getD 0 (Block.make 0 512)

/-- Block 1 of `ovState2`. -/
def wb1 : Block := ovState2.blocks.getD 1 (Block.make 0 512)

/-- Record `"1,a"`. -/
def wd1 : Rec := ['1', ',', 'a']

/-- Record `"2,b"`. -/
def wd2 : Rec := ['2', ',', 'b']

/-- Record `"2,c"` — second record with key `"2"`. -/
def wd3 : Rec := ['2', ',', 'c']

/-- A one-block state holding a duplicated key `"2"`. -/
def dState : BlockedSequenceSet := runOps [Op.add wd1, Op.add wd2, Op.add wd3]

/-- The single block of `dState`. -/
def dBlk : Block := dState.blocks.getD 0 (Block.make 0 512)

/-- The duplicated key `"2"`. -/
def key2 : Key := ['2']

/-- An absent key `"9"`. -/
def key9 : Key := ['9']

/-- Record `"1,a"` for the insert-only witnesses. -/
def wIns1 : Rec := ['1', ',', 'a']

/-- Record `"2,b"` for the insert-only witnesses. -/
def wIns2 : Rec := ['2', ',', 'b']

/-- A one-insert history. -/
def wInsOps : List Op := [Op.ins wIns1]

/-- A full 512-byte block (capacity exactly exhausted). -/
def fullBlk : Block := ((Block.make 0 512).AddRecord (List.replicate 512 'x')).1

/-- A block with 500 of 512 bytes used (12 bytes free). -/
def nearBlk : Block := ((Block.make 0 512).AddRecord (List.replicate 500 'x')).1

/-! ## Basic lemmas about keys, highest keys and sorted insertion -/

theorem highestKeyOf_singleton (x : Rec) : highestKeyOf [x] = extractKey x := rfl

theorem highestKeyOf_cons_cons (x y : Rec) (ys : List Rec) :
    highestKeyOf (x :: y :: ys) = highestKeyOf (y :: ys) := by
  simp [highestKeyOf]

theorem highestKeyOf_cons_of_ne_nil (x : Rec) {xs : List Rec} (h : xs ≠ []) :
    highestKeyOf (x :: xs) = highestKeyOf xs := by
  cases xs with
  | nil => exact absurd rfl h
  | cons y ys => exact highestKeyOf_cons_cons x y ys

theorem highestKeyOf_eq_getLast (recs : List Rec) (h : recs ≠ []) :
    highestKeyOf recs = extractKey (recs.getLast h) := by
  simp [highestKeyOf, List.getLast?_eq_getLast recs h]

theorem highestKeyOf_concat (recs : List Rec) (rec : Rec) :
    highestKeyOf (recs ++ [rec]) = extractKey rec := by
  simp [highestKeyOf]

/-- In a sorted record list, every key is at most the last record's key. -/
theorem le_highestKeyOf {recs : List Rec} (hs : recs.Sorted recLe)
    {r : Rec} (hr : r ∈ recs) : extractKey r ≤ highestKeyOf recs := by
  induction recs with
  | nil => cases hr
  | cons x xs ih =>
    cases xs with
    | nil =>
      rcases List.mem_singleton.1 hr with rfl
      exact le_of_eq rfl
    | cons y ys =>
      rw [highestKeyOf_cons_cons]
      rcases List.mem_cons.1 hr with rfl | hr2
      · have hmem : (y :: ys).getLast (by simp) ∈ y :: ys := List.getLast_mem _
        have hle : recLe r ((y :: ys).getLast (by simp)) :=
          (List.pairwise_cons.1 hs).1 _ hmem
        rw [highestKeyOf_eq_getLast (y :: ys) (by simp)]
        exact hle
      · exact ih hs.of_cons hr2

theorem insertSortedRecs_cons (k : Key) (rec x : Rec) (xs : List Rec) :
    insertSortedRecs k rec (x :: xs) =
      if extractKey x < k then x :: insertSortedRecs k rec xs
      else rec :: x :: xs := rfl

theorem insertSortedRecs_eq_orderedInsert (rec : Rec) (l : List Rec) :
    insertSortedRecs (extractKey rec) rec l = l.orderedInsert recLe rec := by
  induction l with
  | nil => rfl
  | cons x xs ih =>
    simp only [insertSortedRecs, List.orderedInsert]
    by_cases h : extractKey x < extractKey rec
    · rw [if_pos h, if_neg (by simpa [recLe] using not_le.2 h), ih]
    · rw [if_neg h, if_pos (show recLe rec x from not_lt.1 h)]

theorem insertSortedRecs_ne_nil (k : Key) (rec : Rec) (l : List Rec) :
    insertSortedRecs k rec l ≠ [] := by
  cases l with
  | nil => simp [insertSortedRecs]
  | cons x xs =>
    simp only [insertSortedRecs]
    split <;> simp

theorem insertSortedRecs_perm (rec : Rec) (l : List Rec) :
    List.Perm (insertSortedRecs (extractKey rec) rec l) (rec :: l) := by
  rw [insertSortedRecs_eq_orderedInsert]
  exact List.perm_orderedInsert _ _ _

theorem mem_insertSortedRecs {r rec : Rec} {l : List Rec} :
    r ∈ insertSortedRecs (extractKey rec) rec l ↔ r = rec ∨ r ∈ l := by
  rw [insertSortedRecs_eq_orderedInsert]
  exact List.mem_orderedInsert _

/-- Sorted insertion preserves sortedness by key. -/
theorem sorted_insertSortedRecs {l : List Rec} (hs : l.Sorted recLe) (rec : Rec) :
    (insertSortedRecs (extractKey rec) rec l).Sorted recLe := by
  rw [insertSortedRecs_eq_orderedInsert]
  exact List.Sorted.orderedInsert _ _ hs

/-- When every existing key is strictly below the new key, sorted
insertion appends at the end. -/
theorem insertSortedRecs_eq_append {k : Key} {rec : Rec} {l : List Rec}
    (h : ∀ r ∈ l, extractKey r < k) :
    insertSortedRecs k rec l = l ++ [rec] := by
  induction l with
  | nil => rfl
  | cons x xs ih =>
    simp only [insertSortedRecs, if_pos (h x (List.mem_cons_self x xs))]
    rw [ih fun r hr => h r (List.mem_cons_of_mem x hr)]
    rfl

/-- Inserting a key that is at most the current highest key leaves the
highest key unchanged. -/
theorem highestKeyOf_insertSortedRecs_of_le {rec : Rec} {l : List Rec}
    (hne : l ≠ []) (hle : extractKey rec ≤ highestKeyOf l) :
    highestKeyOf (insertSortedRecs (extractKey rec) rec l) = highestKeyOf l := by
  induction l with
  | nil => exact absurd rfl hne
  | cons x xs ih =>
    cases xs with
    | nil =>
      simp only [insertSortedRecs]
      rw [highestKeyOf_singleton] at hle
      rw [if_neg (not_lt.2 hle)]
      rw [highestKeyOf_cons_of_ne_nil rec (by simp)]
    | cons y ys =>
      rw [highestKeyOf_cons_cons] at hle
      rw [insertSortedRecs_cons]
      by_cases h : extractKey x < extractKey rec
      · rw [if_pos h,
          highestKeyOf_cons_of_ne_nil x (insertSortedRecs_ne_nil (extractKey rec) rec (y :: ys)),
          highestKeyOf_cons_cons, ih (by simp) hle]
      · rw [if_neg h, highestKeyOf_cons_of_ne_nil rec (by simp), highestKeyOf_cons_cons]

/-! ## Characterizing the block-choice loop of `Insert` -/

theorem insertIntoBlocks_eq_none {k : Key} {rec : Rec} {bs : List Block} :
    insertIntoBlocks k rec bs = none ↔
      ∀ b ∈ bs, ¬(b.GetRecordCount = 0 ∨ k ≤ b.getHighestKey) := by
  induction bs with
  | nil => simp [insertIntoBlocks]
  | cons b bs ih =>
    simp only [insertIntoBlocks]
    by_cases h : b.GetRecordCount = 0 ∨ k ≤ b.getHighestKey
    · rw [if_pos h]
      constructor
      · intro hcontr
        exact absurd hcontr (by simp)
      · intro hall
        exact absurd h (hall b (List.mem_cons_self b bs))
    · rw [if_neg h, Option.map_eq_none']
      constructor
      · intro hnone x hx
        rcases List.mem_cons.1 hx with rfl | hx2
        · exact h
        · exact ih.1 hnone x hx2
      · intro hall
        exact ih.2 fun x hx => hall x (List.mem_cons_of_mem b hx)

/-- The successful case of the block-choice loop: the list splits at
the first qualifying block, which receives the sorted insert. -/
theorem insertIntoBlocks_eq_some {k : Key} {rec : Rec} {bs bs2 : List Block} :
    insertIntoBlocks k rec bs = some bs2 ↔
      ∃ l1 b l2, bs = l1 ++ b :: l2 ∧
        bs2 = l1 ++ b.InsertSorted rec :: l2 ∧
        (b.GetRecordCount = 0 ∨ k ≤ b.getHighestKey) ∧
        ∀ x ∈ l1, ¬(x.GetRecordCount = 0 ∨ k ≤ x.getHighestKey) := by
  induction bs generalizing bs2 with
  | nil => simp [insertIntoBlocks]
  | cons b bs ih =>
    simp only [insertIntoBlocks]
    by_cases h : b.GetRecordCount = 0 ∨ k ≤ b.getHighestKey
    · rw [if_pos h]
      constructor
      · intro hsome
        rcases Option.some.injEq _ _ ▸ hsome with rfl
        exact ⟨[], b, bs, rfl, by simp [hsome.symm], h, by simp⟩
      · rintro ⟨l1, c, l2, heq, hbs2, hc, hl1⟩
        cases l1 with
        | nil =>
          simp only [List.nil_append, List.cons.injEq] at heq
          rcases heq with ⟨rfl, rfl⟩
          simpa using hbs2.symm
        | cons x l1 =>
          simp only [List.cons_append, List.cons.injEq] at heq
          rcases heq with ⟨rfl, rfl⟩
          exact absurd h (hl1 b (List.mem_cons_self b l1))
    · rw [if_neg h]
      constructor
      · intro hmap
        rcases Option.map_eq_some'.1 hmap with ⟨bs3, hbs3, rfl⟩
        rcases ih.1 hbs3 with ⟨l1, c, l2, rfl, rfl, hc, hl1⟩
        refine ⟨b :: l1, c, l2, rfl, rfl, hc, ?_⟩
        intro x hx
        rcases List.mem_cons.1 hx with rfl | hx2
        · exact h
        · exact hl1 x hx2
      · rintro ⟨l1, c, l2, heq, hbs2, hc, hl1⟩
        cases l1 with
        | nil =>
          simp only [List.nil_append, List.cons.injEq] at heq
          exact absurd (heq.1 ▸ hc) h
        | cons x l1 =>
          simp only [List.cons_append, List.cons.injEq] at heq
          rcases heq with ⟨rfl, rfl⟩
          have hrec2 : insertIntoBlocks k rec (l1 ++ c :: l2) =
              some (l1 ++ c.InsertSorted rec :: l2) :=
            ih.2 ⟨l1, c, l2, rfl, rfl, hc, fun y hy => hl1 y (List.mem_cons_of_mem b hy)⟩
          rw [hrec2, Option.map_some']
          rw [hbs2]
          simp

/-! ## The sorted-population invariant -/

theorem InsertSorted_records (b : Block) (rec : Rec) :
    (b.InsertSorted rec).records = insertSortedRecs (extractKey rec) rec b.records := rfl

theorem InsertSorted_RBN (b : Block) (rec : Rec) :
    (b.InsertSorted rec).RBN = b.RBN := rfl

theorem getHighestKey_InsertSorted_of_le {b : Block} {rec : Rec}
    (hne : b.records ≠ []) (hle : extractKey rec ≤ b.getHighestKey) :
    (b.InsertSorted rec).getHighestKey = b.getHighestKey := by
  have := highestKeyOf_insertSortedRecs_of_le hne hle
  simpa [Block.getHighestKey, Block.InsertSorted] using this

theorem updateLast_eq_append {bs : List Block} (h : bs ≠ []) (f : Block → Block) :
    updateLast f bs = bs.dropLast ++ [f (bs.getLast h)] := by
  induction bs with
  | nil => exact absurd rfl h
  | cons b bs ih =>
    cases bs with
    | nil => rfl
    | cons c cs =>
      have hstep : updateLast f (b :: c :: cs) = b :: updateLast f (c :: cs) := rfl
      rw [hstep, ih (by simp)]
      simp [List.getLast]

/-- The chosen-block case of `Insert` preserves the invariant. -/
theorem GoodBlocks_insertIntoBlocks {rec : Rec} {bs bs2 : List Block}
    (hg : GoodBlocks bs)
    (hm : insertIntoBlocks (extractKey rec) rec bs = some bs2) :
    GoodBlocks bs2 := by
  rcases insertIntoBlocks_eq_some.1 hm with ⟨l1, b, l2, rfl, rfl, hb, hl1⟩
  obtain ⟨hpt, hpw⟩ := hg
  have hbmem : b ∈ l1 ++ b :: l2 := by simp
  have hbne : b.records ≠ [] := (hpt b hbmem).1
  have hbsorted : b.records.Sorted recLe := (hpt b hbmem).2
  have hble : extractKey rec ≤ b.getHighestKey := by
    rcases hb with h0 | hle
    · exact absurd (List.length_eq_zero.1 h0) hbne
    · exact hle
  have hhigh : (b.InsertSorted rec).getHighestKey = b.getHighestKey :=
    getHighestKey_InsertSorted_of_le hbne hble
  constructor
  · intro c hc
    rcases List.mem_append.1 hc with hc1 | hc2
    · exact hpt c (List.mem_append_left _ hc1)
    rcases List.mem_cons.1 hc2 with rfl | hc3
    · exact ⟨by
        rw [InsertSorted_records]
        exact insertSortedRecs_ne_nil _ _ _,
        by
        rw [InsertSorted_records]
        exact sorted_insertSortedRecs hbsorted rec⟩
    · exact hpt c (List.mem_append_right _ (List.mem_cons_of_mem _ hc3))
  · rw [List.pairwise_append] at hpw ⊢
    obtain ⟨hp1, hp2, hp12⟩ := hpw
    rw [List.pairwise_cons] at hp2 ⊢
    refine ⟨hp1, ⟨?_, hp2.2⟩, ?_⟩
    · intro c hc r hr
      rw [show (b.InsertSorted rec).getHighestKey < extractKey r ↔
          b.getHighestKey < extractKey r from by rw [hhigh]] at *
      exact hp2.1 c hc r hr
    · intro a ha c hc
      rcases List.mem_cons.1 hc with rfl | hc2
      · intro r hr
        rw [InsertSorted_records] at hr
        rcases mem_insertSortedRecs.1 hr with rfl | hr2
        · have hna := hl1 a ha
          push_neg at hna
          exact hna.2
        · exact hp12 a ha b (List.mem_cons_self _ _) r hr2
      · exact hp12 a ha c (List.mem_cons_of_mem _ hc2)

theorem updateLast_concat (f : Block → Block) (l : List Block) (a : Block) :
    updateLast f (l ++ [a]) = l ++ [f a] := by
  rw [updateLast_eq_append (by simp) f, List.dropLast_concat, List.getLast_concat]

/-! ## Unfolding the three shapes of `Insert` and `AddRecord` -/

theorem Insert_nil (rec : Rec) :
    BlockedSequenceSet.Insert ⟨[]⟩ rec = ⟨[(Block.make 0 512).InsertSorted rec]⟩ := by
  rfl

theorem Insert_none_noSpace {rec : Rec} {bs : List Block} (hne : bs ≠ [])
    (hm : insertIntoBlocks (extractKey rec) rec bs = none)
    (hspace : (bs.getLast hne).HasSpace rec = false) :
    BlockedSequenceSet.Insert ⟨bs⟩ rec =
      ⟨bs ++ [(Block.make bs.length 512).InsertSorted rec]⟩ := by
  simp only [BlockedSequenceSet.Insert, hm, List.getLast?_eq_getLast bs hne, hspace,
    Bool.not_false, if_true, updateLast_concat]

theorem Insert_none_hasSpace {rec : Rec} {bs : List Block} (hne : bs ≠ [])
    (hm : insertIntoBlocks (extractKey rec) rec bs = none)
    (hspace : (bs.getLast hne).HasSpace rec = true) :
    BlockedSequenceSet.Insert ⟨bs⟩ rec =
      ⟨bs.dropLast ++ [(bs.getLast hne).InsertSorted rec]⟩ := by
  simp only [BlockedSequenceSet.Insert, hm, List.getLast?_eq_getLast bs hne, hspace,
    Bool.not_true]
  rw [if_neg (by simp), updateLast_eq_append hne]

theorem AddRecord_nil (rec : Rec) :
    BlockedSequenceSet.AddRecord ⟨[]⟩ rec = ⟨[((Block.make 0 512).AddRecord rec).1]⟩ := by
  rfl

theorem AddRecord_noSpace {rec : Rec} {bs : List Block} (hne : bs ≠ [])
    (hfree : (bs.getLast hne).GetFreeSpace < (rec.length : Int)) :
    BlockedSequenceSet.AddRecord ⟨bs⟩ rec =
      ⟨bs ++ [((Block.make bs.length 512).AddRecord rec).1]⟩ := by
  simp only [BlockedSequenceSet.AddRecord, List.getLast?_eq_getLast bs hne,
    decide_eq_true hfree, if_true, updateLast_concat]

theorem AddRecord_hasSpace {rec : Rec} {bs : List Block} (hne : bs ≠ [])
    (hfree : ¬ (bs.getLast hne).GetFreeSpace < (rec.length : Int)) :
    BlockedSequenceSet.AddRecord ⟨bs⟩ rec =
      ⟨bs.dropLast ++ [((bs.getLast hne).AddRecord rec).1]⟩ := by
  simp only [BlockedSequenceSet.AddRecord, List.getLast?_eq_getLast bs hne,
    decide_eq_false hfree]
  rw [if_neg (by simp), updateLast_eq_append hne]

/-- The fallback case of `Insert` preserves the invariant. -/
theorem GoodBlocks_Insert_none {rec : Rec} {bs : List Block}
    (hg : GoodBlocks bs)
    (hm : insertIntoBlocks (extractKey rec) rec bs = none) :
    GoodBlocks ((BlockedSequenceSet.Insert ⟨bs⟩ rec).blocks) := by
  have hfail := insertIntoBlocks_eq_none.1 hm
  have hlt : ∀ b ∈ bs, b.getHighestKey < extractKey rec := by
    intro b hb
    have hnb := hfail b hb
    push_neg at hnb
    exact hnb.2
  obtain ⟨hpt, hpw⟩ := hg
  by_cases hne : bs = []
  · subst hne
    rw [Insert_nil]
    have hrec0 : ((Block.make 0 512).InsertSorted rec).records = [rec] := rfl
    refine ⟨?_, by simp⟩
    intro c hc
    rcases List.mem_singleton.1 hc with rfl
    exact ⟨by rw [hrec0]; simp, by rw [hrec0]; exact List.sorted_singleton _⟩
  · have hLmem : bs.getLast hne ∈ bs := List.getLast_mem hne
    have hLfacts := hpt _ hLmem
    have happend : ((bs.getLast hne).InsertSorted rec).records =
        (bs.getLast hne).records ++ [rec] := by
      rw [InsertSorted_records]
      exact insertSortedRecs_eq_append fun r hr =>
        lt_of_le_of_lt (le_highestKeyOf hLfacts.2 hr) (hlt _ hLmem)
    cases hspace : (bs.getLast hne).HasSpace rec with
    | false =>
      rw [Insert_none_noSpace hne hm hspace]
      have hnewrec : ((Block.make bs.length 512).InsertSorted rec).records = [rec] := rfl
      constructor
      · intro c hc
        rcases List.mem_append.1 hc with hc1 | hc2
        · exact hpt c hc1
        · rcases List.mem_singleton.1 hc2 with rfl
          exact ⟨by rw [hnewrec]; simp, by rw [hnewrec]; exact List.sorted_singleton _⟩
      · rw [List.pairwise_append]
        refine ⟨hpw, by simp, ?_⟩
        intro a ha c hc
        rcases List.mem_singleton.1 hc with rfl
        intro r hr
        rw [hnewrec] at hr
        rcases List.mem_singleton.1 hr with rfl
        exact hlt a ha
    | true =>
      rw [Insert_none_hasSpace hne hm hspace]
      have hbs_decomp : bs.dropLast ++ [bs.getLast hne] = bs :=
        List.dropLast_append_getLast hne
      constructor
      · intro c hc
        rcases List.mem_append.1 hc with hc1 | hc2
        · exact hpt c ((List.dropLast_sublist bs).subset hc1)
        · rcases List.mem_singleton.1 hc2 with rfl
          exact ⟨by
            rw [InsertSorted_records]
            exact insertSortedRecs_ne_nil _ _ _, by
            rw [InsertSorted_records]
            exact sorted_insertSortedRecs hLfacts.2 rec⟩
      · have hpw2 : (bs.dropLast ++ [bs.getLast hne]).Pairwise sepBlocks := by
          rw [hbs_decomp]
          exact hpw
        rw [List.pairwise_append] at hpw2 ⊢
        obtain ⟨hq1, _, hq12⟩ := hpw2
        refine ⟨hq1, by simp, ?_⟩
        intro a ha c hc
        rcases List.mem_singleton.1 hc with rfl
        intro r hr
        rw [happend] at hr
        rcases List.mem_append.1 hr with hr1 | hr2
        · exact hq12 a ha _ (List.mem_singleton_self _) r hr1
        · rcases List.mem_singleton.1 hr2 with rfl
          exact hlt a (hbs_decomp ▸ List.mem_append_left _ ha)

/-- `Insert` preserves the sorted-population invariant. -/
theorem GoodBlocks_Insert {s : BlockedSequenceSet} (hg : GoodBlocks s.blocks)
    (rec : Rec) : GoodBlocks ((s.Insert rec).blocks) := by
  obtain ⟨bs⟩ := s
  cases hm : insertIntoBlocks (extractKey rec) rec bs with
  | none => exact GoodBlocks_Insert_none hg hm
  | some bs2 =>
    have heq : BlockedSequenceSet.Insert ⟨bs⟩ rec = ⟨bs2⟩ := by
      simp only [BlockedSequenceSet.Insert, hm]
    rw [heq]
    exact GoodBlocks_insertIntoBlocks hg hm

/-- Invariance of a predicate along a fold of operations. -/
theorem foldl_stepOp_inv (P : BlockedSequenceSet → Prop) :
    ∀ (ops : List Op) (s : BlockedSequenceSet), P s →
      (∀ t op, op ∈ ops → P t → P (stepOp t op)) → P (ops.foldl stepOp s) := by
  intro ops
  induction ops with
  | nil => exact fun s hs _ => hs
  | cons op ops ih =>
    intro s hs hstep
    exact ih (stepOp s op) (hstep s op (List.mem_cons_self _ _) hs)
      (fun t op2 h2 => hstep t op2 (List.mem_cons_of_mem _ h2))

/-- States reached by an `Insert`-only history satisfy the invariant. -/
theorem GoodBlocks_runOps {ops : List Op} (h : InsertOnly ops) :
    GoodBlocks (runOps ops).blocks := by
  refine foldl_stepOp_inv (fun s => GoodBlocks s.blocks) ops ⟨[]⟩
    ⟨fun b hb => absurd hb (List.not_mem_nil b), List.Pairwise.nil⟩ ?_
  intro t op hop hgt
  cases op with
  | ins r => exact GoodBlocks_Insert hgt r
  | add r => exact absurd (h _ hop) (by simp [Op.isIns])
  | del k => exact absurd (h _ hop) (by simp [Op.isIns])

/-! ## Search lemmas -/

theorem searchRecs_eq_none {k : Key} {l : List Rec} :
    searchRecs k l = none ↔ ∀ r ∈ l, extractKey r ≠ k := by
  induction l with
  | nil => simp [searchRecs]
  | cons x xs ih =>
    simp only [searchRecs]
    by_cases h : extractKey x = k
    · simp [h]
    · simp [h, ih]

theorem searchRecs_append_of_none {k : Key} {l1 l2 : List Rec}
    (h : ∀ r ∈ l1, extractKey r ≠ k) :
    searchRecs k (l1 ++ l2) = searchRecs k l2 := by
  induction l1 with
  | nil => rfl
  | cons x xs ih =>
    simp only [List.cons_append, searchRecs,
      if_neg (h x (List.mem_cons_self x xs))]
    exact ih fun r hr => h r (List.mem_cons_of_mem x hr)

theorem searchRecs_insertSorted_self (rec : Rec) (l : List Rec) :
    searchRecs (extractKey rec) (insertSortedRecs (extractKey rec) rec l) =
      some rec := by
  induction l with
  | nil => simp [insertSortedRecs, searchRecs]
  | cons x xs ih =>
    rw [insertSortedRecs_cons]
    by_cases h : extractKey x < extractKey rec
    · rw [if_pos h]
      simp only [searchRecs, if_neg (ne_of_lt h)]
      exact ih
    · rw [if_neg h]
      simp [searchRecs]

theorem searchBlocks_append_of_none {k : Key} {l1 bs : List Block}
    (h : ∀ x ∈ l1, searchRecs k x.records = none) :
    searchBlocks k (l1 ++ bs) = searchBlocks k bs := by
  induction l1 with
  | nil => rfl
  | cons x xs ih =>
    simp only [List.cons_append, searchBlocks, h x (List.mem_cons_self x xs)]
    exact ih fun y hy => h y (List.mem_cons_of_mem x hy)

/-- In a good state, a block whose highest key is below `k` contains no
match for `k`. -/
theorem searchRecs_none_of_highest_lt {k : Key} {b : Block}
    (hsorted : b.records.Sorted recLe) (hlt : b.getHighestKey < k) :
    searchRecs k b.records = none := by
  rw [searchRecs_eq_none]
  intro r hr
  exact ne_of_lt (lt_of_le_of_lt (le_highestKeyOf hsorted hr) hlt)

/-- Round trip on one `Insert` from any good state: searching the new
record's key immediately afterwards returns exactly the new record. -/
theorem Search_Insert_eq {bs : List Block} (hg : GoodBlocks bs) (rec : Rec) :
    (BlockedSequenceSet.Insert ⟨bs⟩ rec).Search (extractKey rec) = some rec := by
  obtain ⟨hpt, _⟩ := hg
  cases hm : insertIntoBlocks (extractKey rec) rec bs with
  | some bs2 =>
    have heq : BlockedSequenceSet.Insert ⟨bs⟩ rec = ⟨bs2⟩ := by
      simp only [BlockedSequenceSet.Insert, hm]
    rw [heq]
    rcases insertIntoBlocks_eq_some.1 hm with ⟨l1, b, l2, rfl, rfl, _, hl1⟩
    show searchBlocks (extractKey rec) (l1 ++ b.InsertSorted rec :: l2) = some rec
    rw [searchBlocks_append_of_none]
    · simp only [searchBlocks, InsertSorted_records, searchRecs_insertSorted_self]
    · intro x hx
      have hnx := hl1 x hx
      push_neg at hnx
      exact searchRecs_none_of_highest_lt
        (hpt x (List.mem_append_left _ hx)).2 hnx.2
  | none =>
    have hfail := insertIntoBlocks_eq_none.1 hm
    have hnone : ∀ x ∈ bs, searchRecs (extractKey rec) x.records = none := by
      intro x hx
      have hnx := hfail x hx
      push_neg at hnx
      exact searchRecs_none_of_highest_lt (hpt x hx).2 hnx.2
    by_cases hne : bs = []
    · subst hne
      rw [Insert_nil]
      show searchBlocks _ [(Block.make 0 512).InsertSorted rec] = some rec
      simp only [searchBlocks, InsertSorted_records, searchRecs_insertSorted_self]
    · cases hspace : (bs.getLast hne).HasSpace rec with
      | false =>
        rw [Insert_none_noSpace hne hm hspace]
        show searchBlocks _ (bs ++ [(Block.make bs.length 512).InsertSorted rec]) = some rec
        rw [searchBlocks_append_of_none hnone]
        simp only [searchBlocks, InsertSorted_records, searchRecs_insertSorted_self]
      | true =>
        rw [Insert_none_hasSpace hne hm hspace]
        show searchBlocks _ (bs.dropLast ++ [(bs.getLast hne).InsertSorted rec]) = some rec
        rw [searchBlocks_append_of_none fun x hx =>
          hnone x ((List.dropLast_sublist bs).subset hx)]
        simp only [searchBlocks, InsertSorted_records, searchRecs_insertSorted_self]

/-! ## Characterizing `Delete` -/

theorem deleteFromBlocks_eq_none {k : Key} {bs : List Block} :
    deleteFromBlocks k bs = none ↔ ∀ b ∈ bs, (b.DeleteRecord k).2 = false := by
  induction bs with
  | nil => simp [deleteFromBlocks]
  | cons b bs ih =>
    simp only [deleteFromBlocks]
    cases hb : (b.DeleteRecord k).2 with
    | true => simp [hb]
    | false =>
      rw [if_neg (by simp [hb]), Option.map_eq_none']
      constructor
      · intro hnone x hx
        rcases List.mem_cons.1 hx with rfl | hx2
        · exact hb
        · exact ih.1 hnone x hx2
      · intro hall
        exact ih.2 fun x hx => hall x (List.mem_cons_of_mem b hx)

theorem deleteFromBlocks_eq_some {k : Key} {bs bs2 : List Block} :
    deleteFromBlocks k bs = some bs2 ↔
      ∃ l1 b l2, bs = l1 ++ b :: l2 ∧
        bs2 = l1 ++ (b.DeleteRecord k).1 :: l2 ∧
        (b.DeleteRecord k).2 = true ∧
        ∀ x ∈ l1, (x.DeleteRecord k).2 = false := by
  induction bs generalizing bs2 with
  | nil => simp [deleteFromBlocks]
  | cons b bs ih =>
    simp only [deleteFromBlocks]
    cases hb : (b.DeleteRecord k).2 with
    | true =>
      rw [if_pos (by simp [hb])]
      constructor
      · intro hsome
        exact ⟨[], b, bs, rfl, (Option.some.inj hsome).symm, hb, by simp⟩
      · rintro ⟨l1, c, l2, heq, hbs2, hc, hl1⟩
        cases l1 with
        | nil =>
          simp only [List.nil_append, List.cons.injEq] at heq
          rcases heq with ⟨rfl, rfl⟩
          simp [hbs2]
        | cons x l1 =>
          simp only [List.cons_append, List.cons.injEq] at heq
          rcases heq with ⟨rfl, rfl⟩
          exact absurd (hl1 b (List.mem_cons_self b l1)) (by simp [hb])
    | false =>
      rw [if_neg (by simp [hb])]
      constructor
      · intro hmap
        rcases Option.map_eq_some'.1 hmap with ⟨bs3, hbs3, rfl⟩
        rcases ih.1 hbs3 with ⟨l1, c, l2, rfl, rfl, hc, hl1⟩
        refine ⟨b :: l1, c, l2, rfl, rfl, hc, ?_⟩
        intro x hx
        rcases List.mem_cons.1 hx with rfl | hx2
        · exact hb
        · exact hl1 x hx2
      · rintro ⟨l1, c, l2, heq, hbs2, hc, hl1⟩
        cases l1 with
        | nil =>
          simp only [List.nil_append, List.cons.injEq] at heq
          rcases heq with ⟨rfl, rfl⟩
          exact absurd hc (by simp [hb])
        | cons x l1 =>
          simp only [List.cons_append, List.cons.injEq] at heq
          rcases heq with ⟨rfl, rfl⟩
          have hrec2 : deleteFromBlocks k (l1 ++ c :: l2) =
              some (l1 ++ (c.DeleteRecord k).1 :: l2) :=
            ih.2 ⟨l1, c, l2, rfl, rfl, hc, fun y hy => hl1 y (List.mem_cons_of_mem b hy)⟩
          rw [hrec2, Option.map_some', hbs2]
          simp

/-! ## Relative block numbers -/

theorem AddRecord_RBN (b : Block) (rec : Rec) : ((b.AddRecord rec).1).RBN = b.RBN := rfl

theorem DeleteRecord_RBN (b : Block) (k : Key) : ((b.DeleteRecord k).1).RBN = b.RBN := by
  cases h : deleteRecs k b.records with
  | none => simp [Block.DeleteRecord, h]
  | some p => simp [Block.DeleteRecord, h]

theorem rbnFrom_congr {n : Int} {bs bs2 : List Block}
    (hmap : bs.map Block.RBN = bs2.map Block.RBN) (h : rbnFrom n bs) :
    rbnFrom n bs2 := by
  induction bs generalizing bs2 n with
  | nil =>
    cases bs2 with
    | nil => trivial
    | cons c cs => simp at hmap
  | cons b bs ih =>
    cases bs2 with
    | nil => simp at hmap
    | cons c cs =>
      simp only [List.map_cons, List.cons.injEq] at hmap
      exact ⟨hmap.1 ▸ h.1, ih hmap.2 h.2⟩

theorem rbnFrom_le {n : Int} {bs : List Block} (h : rbnFrom n bs) :
    ∀ b ∈ bs, n ≤ b.RBN := by
  induction bs generalizing n with
  | nil => intro b hb; cases hb
  | cons c cs ih =>
    intro b hb
    rcases List.mem_cons.1 hb with rfl | hb2
    · exact le_of_eq h.1.symm
    · exact le_trans (by omega) (ih h.2 b hb2)

theorem rbnFrom_append_make {n : Int} {bs : List Block} (h : rbnFrom n bs)
    (m : Int) (hm : m = n + bs.length) (sz : Int) :
    rbnFrom n (bs ++ [Block.make m sz]) := by
  induction bs generalizing n with
  | nil =>
    refine ⟨?_, trivial⟩
    simp only [Block.make]
    simp at hm
    omega
  | cons b bs ih =>
    refine ⟨h.1, ih h.2 ?_⟩
    simp at hm ⊢
    omega

/-- Locating a block by its RBN succeeds (finding that very block) when
RBNs are consecutive. -/
theorem findBlockByRBN_self {n : Int} {bs : List Block} (h : rbnFrom n bs) :
    ∀ b ∈ bs, findBlockByRBN b.RBN bs = some b := by
  induction bs generalizing n with
  | nil => intro b hb; cases hb
  | cons c cs ih =>
    intro b hb
    rcases List.mem_cons.1 hb with rfl | hb2
    · simp [findBlockByRBN]
    · have hgt : n + 1 ≤ b.RBN := rbnFrom_le h.2 b hb2
      have hc : c.RBN = n := h.1
      rw [show findBlockByRBN b.RBN (c :: cs) =
            if c.RBN = b.RBN then some c else findBlockByRBN b.RBN cs from rfl,
        if_neg (by rw [hc]; omega), ih h.2 b hb2]

theorem insertIntoBlocks_map_RBN {k : Key} {rec : Rec} {bs bs2 : List Block}
    (hm : insertIntoBlocks k rec bs = some bs2) :
    bs2.map Block.RBN = bs.map Block.RBN := by
  rcases insertIntoBlocks_eq_some.1 hm with ⟨l1, b, l2, rfl, rfl, _, _⟩
  simp [InsertSorted_RBN]

theorem deleteFromBlocks_map_RBN {k : Key} {bs bs2 : List Block}
    (hm : deleteFromBlocks k bs = some bs2) :
    bs2.map Block.RBN = bs.map Block.RBN := by
  rcases deleteFromBlocks_eq_some.1 hm with ⟨l1, b, l2, rfl, rfl, _, _⟩
  simp [DeleteRecord_RBN]

/-- Every operation keeps RBNs consecutive from 0: new blocks receive
RBN equal to the current block count and are appended; nothing ever
removes a block or renumbers one. -/
theorem rbnFrom_step (s : BlockedSequenceSet) (op : Op)
    (h : rbnFrom 0 s.blocks) : rbnFrom 0 (stepOp s op).blocks := by
  obtain ⟨bs⟩ := s
  cases op with
  | add r =>
    show rbnFrom 0 (BlockedSequenceSet.AddRecord ⟨bs⟩ r).blocks
    by_cases hne : bs = []
    · subst hne
      rw [AddRecord_nil]
      exact ⟨by simp [Block.AddRecord, Block.make], trivial⟩
    · by_cases hfree : (bs.getLast hne).GetFreeSpace < (r.length : Int)
      · rw [AddRecord_noSpace hne hfree]
        refine rbnFrom_congr ?_ (rbnFrom_append_make h (bs.length : Int) (by simp) 512)
        simp [AddRecord_RBN]
      · rw [AddRecord_hasSpace hne hfree]
        refine rbnFrom_congr ?_ h
        conv_lhs => rw [← List.dropLast_append_getLast hne]
        simp [AddRecord_RBN]
  | ins r =>
    show rbnFrom 0 (BlockedSequenceSet.Insert ⟨bs⟩ r).blocks
    cases hm : insertIntoBlocks (extractKey r) r bs with
    | some bs2 =>
      have heq : BlockedSequenceSet.Insert ⟨bs⟩ r = ⟨bs2⟩ := by
        simp only [BlockedSequenceSet.Insert, hm]
      rw [heq]
      exact rbnFrom_congr (insertIntoBlocks_map_RBN hm).symm h
    | none =>
      by_cases hne : bs = []
      · subst hne
        rw [Insert_nil]
        exact ⟨by simp [Block.InsertSorted, Block.make], trivial⟩
      · cases hspace : (bs.getLast hne).HasSpace r with
        | false =>
          rw [Insert_none_noSpace hne hm hspace]
          refine rbnFrom_congr ?_ (rbnFrom_append_make h (bs.length : Int) (by simp) 512)
          simp [InsertSorted_RBN]
        | true =>
          rw [Insert_none_hasSpace hne hm hspace]
          refine rbnFrom_congr ?_ h
          conv_lhs => rw [← List.dropLast_append_getLast hne]
          simp [InsertSorted_RBN]
  | del k2 =>
    show rbnFrom 0 ((BlockedSequenceSet.Delete ⟨bs⟩ k2).2).blocks
    cases hm : deleteFromBlocks k2 bs with
    | none =>
      have heq : (BlockedSequenceSet.Delete ⟨bs⟩ k2).2 = ⟨bs⟩ := by
        simp only [BlockedSequenceSet.Delete, hm]
      rw [heq]
      exact h
    | some bs2 =>
      have heq : (BlockedSequenceSet.Delete ⟨bs⟩ k2).2 = ⟨bs2⟩ := by
        simp only [BlockedSequenceSet.Delete, hm]
      rw [heq]
      exact rbnFrom_congr (deleteFromBlocks_map_RBN hm).symm h

/-- All reachable states have position-consecutive RBNs. -/
theorem rbnFrom_runOps (ops : List Op) : rbnFrom 0 (runOps ops).blocks :=
  foldl_stepOp_inv (fun s => rbnFrom 0 s.blocks) ops ⟨[]⟩ trivial
    fun t op _ ht => rbnFrom_step t op ht

/-! ## The static index over a good state -/

theorem buildEntries_eq_map {bs : List Block} (hpt : ∀ b ∈ bs, b.records ≠ []) :
    (bs.filterMap fun b =>
      if b.GetRecordCount = 0 then none else some (b.getHighestKey, b.RBN)) =
      bs.map fun b => (b.getHighestKey, b.RBN) := by
  induction bs with
  | nil => rfl
  | cons b bs ih =>
    have hne : b.GetRecordCount ≠ 0 := fun h0 =>
      hpt b (List.mem_cons_self b bs) (List.length_eq_zero.1 h0)
    simp only [List.filterMap_cons, List.map_cons, if_neg hne]
    rw [ih fun c hc => hpt c (List.mem_cons_of_mem b hc)]

/-- In a good state the highest keys are strictly increasing in storage
order, so the index entries are already strictly sorted. -/
theorem entries_pairwise {bs : List Block} (hg : GoodBlocks bs) :
    (bs.map fun b => (b.getHighestKey, b.RBN)).Pairwise entryLt := by
  obtain ⟨hpt, hpw⟩ := hg
  rw [List.pairwise_map]
  refine hpw.imp_of_mem ?_
  intro b1 b2 hb1 hb2 hsep
  have hne2 : b2.records ≠ [] := (hpt b2 hb2).1
  have hlast : b2.records.getLast hne2 ∈ b2.records := List.getLast_mem hne2
  have hlt := hsep _ hlast
  have h2 : b2.getHighestKey = extractKey (b2.records.getLast hne2) := by
    rw [Block.getHighestKey, highestKeyOf_eq_getLast _ hne2]
  show b1.getHighestKey < b2.getHighestKey
  rw [h2]
  exact hlt

/-- Over a good state, `BuildStaticIndex` is the identity reordering:
one entry per block, in storage order. -/
theorem BuildStaticIndex_good {bs : List Block} (hg : GoodBlocks bs) :
    BuildStaticIndex ⟨bs⟩ = bs.map fun b => (b.getHighestKey, b.RBN) := by
  rw [BuildStaticIndex]
  show List.insertionSort entryLt
      (bs.filterMap fun b =>
        if b.GetRecordCount = 0 then none else some (b.getHighestKey, b.RBN)) = _
  rw [buildEntries_eq_map fun b hb => (hg.1 b hb).1]
  exact List.Sorted.insertionSort_eq (entries_pairwise hg)

theorem chooseTarget_cons_of_ne_nil {k : Key} {es : List (Key × Int)}
    (h : es ≠ []) (e : Key × Int) :
    chooseTarget k (e :: es) = if k ≤ e.1 then e.2 else chooseTarget k es := by
  cases es with
  | nil => exact absurd rfl h
  | cons e2 es2 => rfl

theorem chooseTarget_first {k : Key} :
    ∀ {l1 : List (Key × Int)} {e : Key × Int} {l2 : List (Key × Int)},
      (∀ x ∈ l1, ¬ k ≤ x.1) → k ≤ e.1 →
      chooseTarget k (l1 ++ e :: l2) = e.2 := by
  intro l1
  induction l1 with
  | nil =>
    intro e l2 _ he
    cases l2 with
    | nil => simp [chooseTarget, he]
    | cons e2 es2 =>
      rw [List.nil_append, chooseTarget_cons_of_ne_nil (by simp) e, if_pos he]
  | cons x l1 ih =>
    intro e l2 hl1 he
    rw [List.cons_append,
      chooseTarget_cons_of_ne_nil (by simp) x,
      if_neg (hl1 x (List.mem_cons_self x l1))]
    exact ih (fun y hy => hl1 y (List.mem_cons_of_mem x hy)) he

theorem scanBlockRecs_cons (k : Key) (r : Rec) (rs : List Rec) :
    scanBlockRecs k (r :: rs) =
      if extractKey r = k then some r
      else if k < extractKey r then none
      else scanBlockRecs k rs := rfl

/-- On a sorted record list that does contain the key, the
short-circuiting block scan agrees with the plain linear scan. -/
theorem scanBlockRecs_eq_searchRecs {k : Key} {l : List Rec}
    (hs : l.Sorted recLe) (hex : ∃ r ∈ l, extractKey r = k) :
    scanBlockRecs k l = searchRecs k l := by
  induction l with
  | nil => rfl
  | cons x xs ih =>
    rw [scanBlockRecs_cons]
    by_cases hx : extractKey x = k
    · rw [if_pos hx]
      simp [searchRecs, hx]
    · rw [if_neg hx]
      rcases hex with ⟨r, hr, hrk⟩
      have hrx : r ≠ x := fun heq => hx (heq ▸ hrk)
      have hrxs : r ∈ xs := by
        rcases List.mem_cons.1 hr with heq | hm
        · exact absurd heq hrx
        · exact hm
      have hxle : extractKey x ≤ extractKey r := (List.pairwise_cons.1 hs).1 r hrxs
      have hnlt : ¬ k < extractKey x := by
        intro hlt
        exact absurd (le_trans hxle (le_of_eq hrk)) (not_le.2 hlt)
      rw [if_neg hnlt]
      simp only [searchRecs, if_neg hx]
      exact ih hs.of_cons ⟨r, hrxs, hrk⟩

theorem exists_first_split {P : Block → Prop} {bs : List Block}
    (h : ∃ b ∈ bs, P b) :
    ∃ l1 b l2, bs = l1 ++ b :: l2 ∧ P b ∧ ∀ x ∈ l1, ¬ P x := by
  induction bs with
  | nil =>
    rcases h with ⟨b, hb, _⟩
    cases hb
  | cons c cs ih =>
    by_cases hc : P c
    · exact ⟨[], c, cs, rfl, hc, by simp⟩
    · rcases h with ⟨b, hb, hPb⟩
      rcases List.mem_cons.1 hb with rfl | hb2
      · exact absurd hPb hc
      · rcases ih ⟨b, hb2, hPb⟩ with ⟨l1, d, l2, heq, hPd, hl1⟩
        refine ⟨c :: l1, d, l2, by rw [heq, List.cons_append], hPd, ?_⟩
        intro x hx
        rcases List.mem_cons.1 hx with rfl | hx2
        · exact hc
        · exact hl1 x hx2

/-- Over a good state with consecutive RBNs, the index-dispatched
search agrees with the full scan on every key present in the set. -/
theorem BPlusTreeSearch_eq_Search_good {bs : List Block} (hg : GoodBlocks bs)
    (hrbn : rbnFrom 0 bs) {k : Key}
    (hpres : ∃ b ∈ bs, ∃ r ∈ b.records, extractKey r = k) :
    BPlusTreeSearch ⟨bs⟩ (BuildStaticIndex ⟨bs⟩) k =
      BlockedSequenceSet.Search ⟨bs⟩ k := by
  obtain ⟨hpt, hpw⟩ := hg
  have hexP : ∃ b ∈ bs, k ≤ b.getHighestKey := by
    rcases hpres with ⟨b, hb, r, hr, hrk⟩
    exact ⟨b, hb, hrk ▸ le_highestKeyOf (hpt b hb).2 hr⟩
  rcases exists_first_split hexP with ⟨l1, b, l2, heqbs, hPb, hl1⟩
  subst heqbs
  rw [BuildStaticIndex_good ⟨hpt, hpw⟩]
  have hpw_decomp := List.pairwise_append.1 hpw
  have hmatch_b : ∃ r ∈ b.records, extractKey r = k := by
    rcases hpres with ⟨bj, hbj, r, hr, hrk⟩
    rcases List.mem_append.1 hbj with hj1 | hj2
    · have hje : k ≤ bj.getHighestKey := hrk ▸ le_highestKeyOf (hpt bj hbj).2 hr
      exact absurd hje (hl1 bj hj1)
    · rcases List.mem_cons.1 hj2 with rfl | hj3
      · exact ⟨r, hr, hrk⟩
      · have hsep : sepBlocks b bj := (List.pairwise_cons.1 hpw_decomp.2.1).1 bj hj3
        have hlt := hsep r hr
        rw [hrk] at hlt
        exact absurd hPb (not_le.2 hlt)
  have htarget : chooseTarget k
      ((l1 ++ b :: l2).map fun c => (c.getHighestKey, c.RBN)) = b.RBN := by
    rw [List.map_append, List.map_cons]
    refine chooseTarget_first ?_ hPb
    intro x hx
    rcases List.mem_map.1 hx with ⟨c, hc, rfl⟩
    exact hl1 c hc
  have hbmem : b ∈ l1 ++ b :: l2 := by simp
  have hbsorted : b.records.Sorted recLe := (hpt b hbmem).2
  have hnone1 : ∀ x ∈ l1, searchRecs k x.records = none := by
    intro x hx
    exact searchRecs_none_of_highest_lt (hpt x (List.mem_append_left _ hx)).2
      (not_le.1 (hl1 x hx))
  cases hes : (l1 ++ b :: l2).map (fun c => (c.getHighestKey, c.RBN)) with
  | nil => simp at hes
  | cons e es =>
    rw [hes] at htarget
    have hlhs : BPlusTreeSearch ⟨l1 ++ b :: l2⟩ (e :: es) k =
        scanBlockRecs k b.records := by
      show (match findBlockByRBN (chooseTarget k (e :: es)) (l1 ++ b :: l2) with
            | none => none
            | some c => scanBlockRecs k c.records) = _
      rw [htarget, findBlockByRBN_self hrbn b hbmem]
    rw [hlhs, scanBlockRecs_eq_searchRecs hbsorted hmatch_b]
    show searchRecs k b.records = searchBlocks k (l1 ++ b :: l2)
    rw [searchBlocks_append_of_none hnone1]
    cases hsr : searchRecs k b.records with
    | none =>
      rcases hmatch_b with ⟨r, hr, hrk⟩
      exact absurd hrk (searchRecs_eq_none.1 hsr r hr)
    | some r0 =>
      show some r0 = searchBlocks k (b :: l2)
      simp only [searchBlocks, hsr]

/-! ## The binary search of `simpleIndex::findBlock` -/

theorem findBlockSpec_of_first {k : Nat} :
    ∀ {keys : List Nat} {rbns : List Int} {i : Nat},
      keys.length = rbns.length → i < keys.length →
      k ≤ keys.getD i 0 → (∀ j, j < i → keys.getD j 0 < k) →
      findBlockSpec k keys rbns = rbns.getD i (-1) := by
  intro keys
  induction keys with
  | nil =>
    intro rbns i _ hi _ _
    exact absurd hi (by simp)
  | cons a as ih =>
    intro rbns i hlen hi hk hfirst
    cases rbns with
    | nil => simp at hlen
    | cons r rs =>
      cases i with
      | zero =>
        simp only [List.getD_cons_zero] at hk
        simp [findBlockSpec, hk]
      | succ i2 =>
        have ha : a < k := by
          have := hfirst 0 (Nat.succ_pos i2)
          simpa using this
        simp only [findBlockSpec, if_neg (not_le.2 ha)]
        rw [List.getD_cons_succ]
        exact ih (by simpa using hlen) (by simpa using hi)
          (by simpa using hk) (fun j hj => by
            have := hfirst (j + 1) (Nat.succ_lt_succ hj)
            simpa using this)

theorem findBlockSpec_of_none {k : Nat} :
    ∀ {keys : List Nat} (rbns : List Int),
      (∀ j, j < keys.length → keys.getD j 0 < k) →
      findBlockSpec k keys rbns = -1 := by
  intro keys
  induction keys with
  | nil => intro rbns _; cases rbns <;> rfl
  | cons a as ih =>
    intro rbns h
    cases rbns with
    | nil => rfl
    | cons r rs =>
      have ha : a < k := by simpa using h 0 (by simp)
      simp only [findBlockSpec, if_neg (not_le.2 ha)]
      exact ih rs fun j hj => by
        have := h (j + 1) (by simpa using Nat.succ_lt_succ hj)
        simpa using this

theorem sorted_getD_mono {keys : List Nat} (hs : keys.Sorted (· ≤ ·))
    {i j : Nat} (hij : i ≤ j) (hj : j < keys.length) :
    keys.getD i 0 ≤ keys.getD j 0 := by
  rcases Nat.eq_or_lt_of_le hij with rfl | hlt
  · exact le_refl _
  · have hi : i < keys.length := lt_trans hlt hj
    rw [List.getD_eq_getElem keys 0 hi, List.getD_eq_getElem keys 0 hj]
    exact List.pairwise_iff_get.1 hs ⟨i, hi⟩ ⟨j, hj⟩ hlt

theorem findBlockLoop_finds {keys : List Nat} {rbns : List Int} {k : Nat}
    (hs : keys.Sorted (· ≤ ·)) {j : Nat} (hjlen : j < keys.length)
    (hkj : k ≤ keys.getD j 0) (hjfirst : ∀ i, i < j → keys.getD i 0 < k) :
    ∀ (fuel : Nat) (left right : Int), (right + 1 - left).toNat ≤ fuel →
      0 ≤ left → right < (keys.length : Int) →
      left ≤ (j : Int) → (j : Int) ≤ right →
      findBlockLoop keys rbns k left right = rbns.getD j (-1) := by
  intro fuel
  induction fuel with
  | zero =>
    intro left right hfuel _ _ hlj hjr
    omega
  | succ fuel ih =>
    intro left right hfuel hl hr hlj hjr
    have hlr : left ≤ right := le_trans hlj hjr
    rw [findBlockLoop, dif_pos hlr]
    dsimp only
    set mid : Int := left + (((right - left).toNat / 2 : Nat) : Int) with hmid
    have hmid_ge : left ≤ mid := by omega
    have hmid_le : mid ≤ right := by
      have h1 : ((right - left).toNat / 2) ≤ (right - left).toNat := Nat.div_le_self _ _
      omega
    have hmidnat : mid.toNat < keys.length := by omega
    by_cases hkm : k ≤ keys.getD mid.toNat 0
    · rw [if_pos hkm]
      have hjle : j ≤ mid.toNat := by
        by_contra hgt
        push_neg at hgt
        exact absurd hkm (not_le.2 (hjfirst mid.toNat hgt))
      by_cases hret : mid = 0 ∨ keys.getD (mid - 1).toNat 0 < k
      · rw [if_pos hret]
        have hjeq : j = mid.toNat := by
          rcases hret with h0 | hprev
          · omega
          · by_contra hne
            have hjlt : j < mid.toNat := lt_of_le_of_ne hjle hne
            have hj1 : j ≤ (mid - 1).toNat := by omega
            have hmono := sorted_getD_mono hs hj1 (by omega)
            exact absurd (lt_of_le_of_lt (le_trans hkj hmono) hprev) (lt_irrefl k)
        rw [hjeq]
      · rw [if_neg hret]
        push_neg at hret
        have hjle2 : (j : Int) ≤ mid - 1 := by
          by_contra hgt
          push_neg at hgt
          have hlt2 : (mid - 1).toNat < j := by omega
          exact absurd hret.2 (not_le.2 (hjfirst _ hlt2))
        exact ih left (mid - 1) (by omega) hl (by omega) hlj hjle2
    · rw [if_neg hkm]
      push_neg at hkm
      have hmlt : mid < (j : Int) := by
        by_contra hge
        push_neg at hge
        have hjm : j ≤ mid.toNat := by omega
        have hmono := sorted_getD_mono hs hjm hmidnat
        exact absurd (lt_of_le_of_lt (le_trans hkj hmono) hkm) (lt_irrefl k)
      exact ih (mid + 1) right (by omega) (by omega) hr (by omega) hjr

theorem findBlockLoop_none {keys : List Nat} {rbns : List Int} {k : Nat}
    (h : ∀ i, i < keys.length → keys.getD i 0 < k) :
    ∀ (fuel : Nat) (left right : Int), (right + 1 - left).toNat ≤ fuel →
      0 ≤ left → right < (keys.length : Int) →
      findBlockLoop keys rbns k left right = -1 := by
  intro fuel
  induction fuel with
  | zero =>
    intro left right hfuel hl hr
    rw [findBlockLoop]
    rw [dif_neg (by omega)]
  | succ fuel ih =>
    intro left right hfuel hl hr
    by_cases hlr : left ≤ right
    · rw [findBlockLoop, dif_pos hlr]
      dsimp only
      set mid : Int := left + (((right - left).toNat / 2 : Nat) : Int) with hmid
      have hmid_ge : left ≤ mid := by omega
      have hmid_le : mid ≤ right := by
        have h1 : ((right - left).toNat / 2) ≤ (right - left).toNat := Nat.div_le_self _ _
        omega
      have hmidnat : mid.toNat < keys.length := by omega
      rw [if_neg (not_le.2 (h mid.toNat hmidnat))]
      exact ih (mid + 1) right (by omega) (by omega) hr
    · rw [findBlockLoop, dif_neg hlr]

/-- `simpleIndex::findBlock` as implemented: on a sorted index it is the
left-most-entry-with-key-at-least-`k` linear search, returning `-1`
both on an empty index and when `k` exceeds every key. -/
theorem simpleFindBlock_eq_spec {keys : List Nat} {rbns : List Int} {k : Nat}
    (hs : keys.Sorted (· ≤ ·)) (hlen : keys.length = rbns.length) :
    simpleFindBlock keys rbns k = findBlockSpec k keys rbns := by
  by_cases hex : ∃ j, j < keys.length ∧ k ≤ keys.getD j 0
  · have hexd : ∃ j, j < keys.length ∧ k ≤ keys.getD j 0 := hex
    classical
    let j := Nat.find hexd
    have hspec : j < keys.length ∧ k ≤ keys.getD j 0 := Nat.find_spec hexd
    have hfirst : ∀ i, i < j → keys.getD i 0 < k := by
      intro i hi
      have hnot := Nat.find_min hexd hi
      push_neg at hnot
      by_cases hilen : i < keys.length
      · exact hnot hilen
      · exact absurd (lt_trans hi hspec.1) hilen
    rw [simpleFindBlock,
      findBlockLoop_finds hs hspec.1 hspec.2 hfirst
        ((keys.length : Int) - 1 + 1 - 0).toNat 0 ((keys.length : Int) - 1)
        (by omega) (by omega) (by omega)
        (by exact_mod_cast Nat.zero_le j) (by omega),
      findBlockSpec_of_first hlen hspec.1 hspec.2 hfirst]
  · push_neg at hex
    have hall : ∀ i, i < keys.length → keys.getD i 0 < k := hex
    rw [simpleFindBlock,
      findBlockLoop_none hall ((keys.length : Int) - 1 + 1 - 0).toNat
        0 ((keys.length : Int) - 1) (by omega) (by omega) (by omega),
      findBlockSpec_of_none rbns hall]

/-! ## `used_bytes` bookkeeping -/

theorem sumLen_nil : sumLen [] = 0 := rfl

theorem sumLen_concat (l : List Rec) (r : Rec) :
    sumLen (l ++ [r]) = sumLen l + r.length := by
  simp [sumLen]

theorem sumLen_cons (x : Rec) (l : List Rec) :
    sumLen (x :: l) = x.length + sumLen l := by
  simp [sumLen]

theorem sumLen_insertSorted (rec : Rec) (l : List Rec) :
    sumLen (insertSortedRecs (extractKey rec) rec l) = sumLen l + rec.length := by
  have hperm := (insertSortedRecs_perm rec l).map List.length
  have hsum := hperm.sum_eq
  simp only [sumLen]
  rw [hsum]
  simp
  omega

theorem deleteRecs_sum {k : Key} :
    ∀ {l ys : List Rec} {n : Nat}, deleteRecs k l = some (ys, n) →
      sumLen l = sumLen ys + n := by
  intro l
  induction l with
  | nil => intro ys n h; simp [deleteRecs] at h
  | cons x xs ih =>
    intro ys n h
    simp only [deleteRecs] at h
    by_cases hx : extractKey x = k
    · rw [if_pos hx] at h
      rcases Prod.mk.injEq _ _ _ _ ▸ Option.some.inj h with heq
      rw [← heq.1, ← heq.2, sumLen_cons]
      omega
    · rw [if_neg hx] at h
      rcases Option.map_eq_some'.1 h with ⟨⟨ys2, n2⟩, hys2, heq⟩
      simp only [Prod.mk.injEq] at heq
      rw [← heq.1, ← heq.2, sumLen_cons, sumLen_cons, ih hys2]
      omega

theorem usedEq_AddRecord {b : Block} (h : sumLen b.records = b.usedBytes) (rec : Rec) :
    sumLen ((b.AddRecord rec).1).records = ((b.AddRecord rec).1).usedBytes := by
  show sumLen (b.records ++ [rec]) = b.usedBytes + rec.length
  rw [sumLen_concat, h]

theorem usedEq_InsertSorted {b : Block} (h : sumLen b.records = b.usedBytes) (rec : Rec) :
    sumLen ((b.InsertSorted rec)).records = (b.InsertSorted rec).usedBytes := by
  show sumLen (insertSortedRecs (extractKey rec) rec b.records) = b.usedBytes + rec.length
  rw [sumLen_insertSorted, h]

theorem usedEq_DeleteRecord {b : Block} (h : sumLen b.records = b.usedBytes) (k : Key) :
    sumLen ((b.DeleteRecord k).1).records = ((b.DeleteRecord k).1).usedBytes := by
  cases hd : deleteRecs k b.records with
  | none => simp [Block.DeleteRecord, hd, h]
  | some p =>
    obtain ⟨ys, n⟩ := p
    have hsum := deleteRecs_sum hd
    simp only [Block.DeleteRecord, hd]
    show sumLen ys = b.usedBytes - (n : Int)
    omega

/-- After any history, every block's `usedBytes` equals the sum of its
record lengths. -/
theorem usedEq_runOps (ops : List Op) :
    ∀ b ∈ (runOps ops).blocks, sumLen b.records = b.usedBytes := by
  refine foldl_stepOp_inv (fun s => ∀ b ∈ s.blocks, sumLen b.records = b.usedBytes)
    ops ⟨[]⟩ (fun b hb => absurd hb (List.not_mem_nil b)) ?_
  intro t op _ ht
  obtain ⟨bs⟩ := t
  have hmk : ∀ rbn : Int, sumLen (Block.make rbn 512).records = (Block.make rbn 512).usedBytes := fun _ => rfl
  cases op with
  | add r =>
    show ∀ b ∈ (BlockedSequenceSet.AddRecord ⟨bs⟩ r).blocks, _
    by_cases hne : bs = []
    · subst hne
      rw [AddRecord_nil]
      intro b hb
      rcases List.mem_singleton.1 hb with rfl
      exact usedEq_AddRecord (hmk 0) r
    · by_cases hfree : (bs.getLast hne).GetFreeSpace < (r.length : Int)
      · rw [AddRecord_noSpace hne hfree]
        intro b hb
        rcases List.mem_append.1 hb with hb1 | hb2
        · exact ht b hb1
        · rcases List.mem_singleton.1 hb2 with rfl
          exact usedEq_AddRecord (hmk _) r
      · rw [AddRecord_hasSpace hne hfree]
        intro b hb
        rcases List.mem_append.1 hb with hb1 | hb2
        · exact ht b ((List.dropLast_sublist bs).subset hb1)
        · rcases List.mem_singleton.1 hb2 with rfl
          exact usedEq_AddRecord (ht _ (List.getLast_mem hne)) r
  | ins r =>
    show ∀ b ∈ (BlockedSequenceSet.Insert ⟨bs⟩ r).blocks, _
    cases hm : insertIntoBlocks (extractKey r) r bs with
    | some bs2 =>
      have heq : BlockedSequenceSet.Insert ⟨bs⟩ r = ⟨bs2⟩ := by
        simp only [BlockedSequenceSet.Insert, hm]
      rw [heq]
      rcases insertIntoBlocks_eq_some.1 hm with ⟨l1, c, l2, rfl, rfl, _, _⟩
      intro b hb
      rcases List.mem_append.1 hb with hb1 | hb2
      · exact ht b (List.mem_append_left _ hb1)
      rcases List.mem_cons.1 hb2 with rfl | hb3
      · exact usedEq_InsertSorted (ht c (by simp)) r
      · exact ht b (List.mem_append_right _ (List.mem_cons_of_mem _ hb3))
    | none =>
      by_cases hne : bs = []
      · subst hne
        rw [Insert_nil]
        intro b hb
        rcases List.mem_singleton.1 hb with rfl
        exact usedEq_InsertSorted (hmk 0) r
      · cases hspace : (bs.getLast hne).HasSpace r with
        | false =>
          rw [Insert_none_noSpace hne hm hspace]
          intro b hb
          rcases List.mem_append.1 hb with hb1 | hb2
          · exact ht b hb1
          · rcases List.mem_singleton.1 hb2 with rfl
            exact usedEq_InsertSorted (hmk _) r
        | true =>
          rw [Insert_none_hasSpace hne hm hspace]
          intro b hb
          rcases List.mem_append.1 hb with hb1 | hb2
          · exact ht b ((List.dropLast_sublist bs).subset hb1)
          · rcases List.mem_singleton.1 hb2 with rfl
            exact usedEq_InsertSorted (ht _ (List.getLast_mem hne)) r
  | del k2 =>
    show ∀ b ∈ ((BlockedSequenceSet.Delete ⟨bs⟩ k2).2).blocks, _
    cases hm : deleteFromBlocks k2 bs with
    | none =>
      have heq : (BlockedSequenceSet.Delete ⟨bs⟩ k2).2 = ⟨bs⟩ := by
        simp only [BlockedSequenceSet.Delete, hm]
      rw [heq]
      exact ht
    | some bs2 =>
      have heq : (BlockedSequenceSet.Delete ⟨bs⟩ k2).2 = ⟨bs2⟩ := by
        simp only [BlockedSequenceSet.Delete, hm]
      rw [heq]
      rcases deleteFromBlocks_eq_some.1 hm with ⟨l1, c, l2, rfl, rfl, _, _⟩
      intro b hb
      rcases List.mem_append.1 hb with hb1 | hb2
      · exact ht b (List.mem_append_left _ hb1)
      rcases List.mem_cons.1 hb2 with rfl | hb3
      · exact usedEq_DeleteRecord (ht c (by simp)) k2
      · exact ht b (List.mem_append_right _ (List.mem_cons_of_mem _ hb3))

/-- Capacity is respected along histories that use only the bulk-load
`AddRecord` path (plus deletes) with records no longer than the block
size: `AddRecord` pre-checks free space and deletes only shrink. -/
theorem capOK_runOps {ops : List Op}
    (hops : ∀ op ∈ ops, op.isAddOrDel = true ∧ op.recLen ≤ 512) :
    ∀ b ∈ (runOps ops).blocks, b.usedBytes ≤ b.blockSize := by
  refine foldl_stepOp_inv (fun s => ∀ b ∈ s.blocks, b.usedBytes ≤ b.blockSize)
    ops ⟨[]⟩ (fun b hb => absurd hb (List.not_mem_nil b)) ?_
  intro t op hop ht
  obtain ⟨bs⟩ := t
  cases op with
  | ins r => exact absurd (hops _ hop).1 (by simp [Op.isAddOrDel])
  | add r =>
    have hlen : (r.length : Int) ≤ 512 := by
      exact_mod_cast (hops _ hop).2
    have hnew : ∀ rbn : Int, ((Block.make rbn 512).AddRecord r).1.usedBytes ≤
        ((Block.make rbn 512).AddRecord r).1.blockSize := by
      intro rbn
      show (0 : Int) + r.length ≤ 512
      omega
    show ∀ b ∈ (BlockedSequenceSet.AddRecord ⟨bs⟩ r).blocks, _
    by_cases hne : bs = []
    · subst hne
      rw [AddRecord_nil]
      intro b hb
      rcases List.mem_singleton.1 hb with rfl
      exact hnew 0
    · by_cases hfree : (bs.getLast hne).GetFreeSpace < (r.length : Int)
      · rw [AddRecord_noSpace hne hfree]
        intro b hb
        rcases List.mem_append.1 hb with hb1 | hb2
        · exact ht b hb1
        · rcases List.mem_singleton.1 hb2 with rfl
          exact hnew _
      · rw [AddRecord_hasSpace hne hfree]
        intro b hb
        rcases List.mem_append.1 hb with hb1 | hb2
        · exact ht b ((List.dropLast_sublist bs).subset hb1)
        · rcases List.mem_singleton.1 hb2 with rfl
          have hfs : (bs.getLast hne).blockSize - (bs.getLast hne).usedBytes ≥
              (r.length : Int) := by
            have := hfree
            simp only [Block.GetFreeSpace, not_lt] at this
            omega
          show (bs.getLast hne).usedBytes + (r.length : Int) ≤ (bs.getLast hne).blockSize
          omega
  | del k2 =>
    show ∀ b ∈ ((BlockedSequenceSet.Delete ⟨bs⟩ k2).2).blocks, _
    cases hm : deleteFromBlocks k2 bs with
    | none =>
      have heq : (BlockedSequenceSet.Delete ⟨bs⟩ k2).2 = ⟨bs⟩ := by
        simp only [BlockedSequenceSet.Delete, hm]
      rw [heq]
      exact ht
    | some bs2 =>
      have heq : (BlockedSequenceSet.Delete ⟨bs⟩ k2).2 = ⟨bs2⟩ := by
        simp only [BlockedSequenceSet.Delete, hm]
      rw [heq]
      rcases deleteFromBlocks_eq_some.1 hm with ⟨l1, c, l2, rfl, rfl, _, _⟩
      intro b hb
      rcases List.mem_append.1 hb with hb1 | hb2
      · exact ht b (List.mem_append_left _ hb1)
      rcases List.mem_cons.1 hb2 with rfl | hb3
      · have hc := ht c (by simp)
        cases hd : deleteRecs k2 c.records with
        | none => simp only [Block.DeleteRecord, hd]; exact hc
        | some p =>
          obtain ⟨ys, n⟩ := p
          simp only [Block.DeleteRecord, hd]
          show c.usedBytes - (n : Int) ≤ c.blockSize
          omega
      · exact ht b (List.mem_append_right _ (List.mem_cons_of_mem _ hb3))

/-! ## Remaining helper lemmas -/

theorem deleteRecs_eq_none {k : Key} {l : List Rec} :
    deleteRecs k l = none ↔ ∀ r ∈ l, extractKey r ≠ k := by
  induction l with
  | nil => simp [deleteRecs]
  | cons x xs ih =>
    simp only [deleteRecs]
    by_cases hx : extractKey x = k
    · simp [hx]
    · simp [hx, Option.map_eq_none', ih]

theorem DeleteRecord_absent {k : Key} {b : Block}
    (h : ∀ r ∈ b.records, extractKey r ≠ k) :
    b.DeleteRecord k = (b, false) := by
  simp [Block.DeleteRecord, deleteRecs_eq_none.2 h]

theorem Delete_absent {k : Key} {s : BlockedSequenceSet}
    (h : ∀ b ∈ s.blocks, ∀ r ∈ b.records, extractKey r ≠ k) :
    s.Delete k = (false, s) := by
  obtain ⟨bs⟩ := s
  have hnone : deleteFromBlocks k bs = none :=
    deleteFromBlocks_eq_none.2 fun b hb => by
      rw [DeleteRecord_absent (h b hb)]
  simp [BlockedSequenceSet.Delete, hnone]

theorem deleteRecs_split {k : Key} {rm : Rec} (hrm : extractKey rm = k) :
    ∀ (r1s r2s : List Rec), (∀ r ∈ r1s, extractKey r ≠ k) →
      deleteRecs k (r1s ++ rm :: r2s) = some (r1s ++ r2s, rm.length) := by
  intro r1s
  induction r1s with
  | nil =>
    intro r2s _
    simp [deleteRecs, hrm]
  | cons x xs ih =>
    intro r2s h
    simp only [List.cons_append, deleteRecs, List.append_eq,
      if_neg (h x (List.mem_cons_self x xs))]
    rw [ih r2s fun r hr => h r (List.mem_cons_of_mem x hr)]
    rfl

theorem rbnFrom_get {bs : List Block} :
    ∀ {n : Int}, rbnFrom n bs → ∀ (i : Nat) (h : i < bs.length),
      (bs.get ⟨i, h⟩).RBN = n + i := by
  induction bs with
  | nil =>
    intro n _ i h
    exact absurd h (by simp)
  | cons b bs ih =>
    intro n hr i h
    cases i with
    | zero => simpa using hr.1
    | succ i2 =>
      have := ih hr.2 i2 (by simpa using h)
      simp only [List.get_cons_succ] at this ⊢
      rw [this]
      push_cast
      ring

theorem insertSortedRecs_eq_takeWhile (rec : Rec) (l : List Rec) :
    insertSortedRecs (extractKey rec) rec l =
      (l.takeWhile fun x => decide (extractKey x < extractKey rec)) ++
        rec :: (l.dropWhile fun x => decide (extractKey x < extractKey rec)) := by
  induction l with
  | nil => rfl
  | cons x xs ih =>
    rw [insertSortedRecs_cons]
    by_cases h : extractKey x < extractKey rec
    · rw [if_pos h]
      simp only [List.takeWhile_cons, List.dropWhile_cons, decide_eq_true h]
      simp only [if_true, List.cons_append]
      rw [ih]
    · rw [if_neg h]
      simp only [List.takeWhile_cons, List.dropWhile_cons, decide_eq_false h]
      simp

theorem chooseTarget_of_all_lt {k : Key} :
    ∀ {es : List (Key × Int)} (h : es ≠ []),
      (∀ x ∈ es, ¬ k ≤ x.1) → chooseTarget k es = (es.getLast h).2 := by
  intro es
  induction es with
  | nil => intro h; exact absurd rfl h
  | cons e es ih =>
    intro _ hall
    cases es with
    | nil =>
      simp [chooseTarget, if_neg (hall e (List.mem_cons_self e []))]
    | cons e2 es2 =>
      rw [chooseTarget_cons_of_ne_nil (by simp) e,
        if_neg (hall e (List.mem_cons_self e _)),
        ih (by simp) fun x hx => hall x (List.mem_cons_of_mem e hx)]
      congr 1

/-! ## The claims -/

/-- C1 (counterexample): for a set populated before the build through
the bulk `AddRecord` path, the claim fails: block 0 holds `10` before
`05` (so its "highest key" is `05`), the index sends the lookup of
`"10"` to block 1, and the index search answers "not found" while the
full scan finds the record. -/
theorem C1_counterexample :
    BPlusTreeSearch cxState (BuildStaticIndex cxState) key10 = none ∧
      cxState.Search key10 = some cxr1 ∧
      (none : Option Rec) ≠ some cxr1 := by
  refine ⟨by decide, by decide, by simp⟩

/-- C1 (amended): for every `BlockedSequenceSet` populated only through
`Insert` before the index build, and every key of a record present at
build time, `BPlusTree::Search` after `BuildStaticIndex` returns the
same success flag and the same record as the full-scan
`BlockedSequenceSet::Search`. -/
theorem C1_index_search_agrees_with_full_scan (ops : List Op) (k : Key)
    (h1 : InsertOnly ops)
    (h2 : ∃ b ∈ (runOps ops).blocks, ∃ r ∈ b.records, extractKey r = k) :
    BPlusTreeSearch (runOps ops) (BuildStaticIndex (runOps ops)) k =
      (runOps ops).Search k :=
  BPlusTreeSearch_eq_Search_good (GoodBlocks_runOps h1) (rbnFrom_runOps ops) h2

/-- C1 (witness): the amended theorem applied to a one-insert history
and the key of the inserted record. -/
theorem C1_witness :
    InsertOnly wInsOps ∧
      (∃ b ∈ (runOps wInsOps).blocks, ∃ r ∈ b.records, extractKey r = ['1']) ∧
      BPlusTreeSearch (runOps wInsOps) (BuildStaticIndex (runOps wInsOps)) ['1'] =
        (runOps wInsOps).Search ['1'] :=
  ⟨by decide, by decide,
    C1_index_search_agrees_with_full_scan wInsOps ['1'] (by decide) (by decide)⟩

/-- C2 (counterexample): three sorted-path inserts of 301-byte records
drive block 0 to 602 used bytes against a 512-byte capacity, refuting
`used_bytes <= capacity_bytes` as an invariant of all operation
sequences. -/
theorem C2_counterexample :
    ¬ ∀ b ∈ (runOps ovOps).blocks, b.usedBytes ≤ b.blockSize := by
  decide

/-- C2 (amended): after every sequence of `AddRecord`, `Insert` and
`Delete` operations the sum of each block's record lengths equals its
`usedBytes`; the bound `usedBytes <= blockSize` additionally holds for
histories of `AddRecord` and `Delete` only, with records no longer
than the 512-byte block size (`Insert`/`InsertSorted` perform no space
check on the block they pick, so the bound is not an invariant of the
sorted path). -/
theorem C2_used_bytes_accounting :
    (∀ ops : List Op, ∀ b ∈ (runOps ops).blocks,
        sumLen b.records = b.usedBytes) ∧
      (∀ ops : List Op, (∀ op ∈ ops, op.isAddOrDel = true ∧ op.recLen ≤ 512) →
        ∀ b ∈ (runOps ops).blocks, b.usedBytes ≤ b.blockSize) :=
  ⟨usedEq_runOps, fun _ hops => capOK_runOps hops⟩

/-- C2 (witness): the accounting theorem applied to a one-record
bulk-load history. -/
theorem C2_witness :
    (∀ op ∈ [Op.add wd1], op.isAddOrDel = true ∧ op.recLen ≤ 512) ∧
      (∀ b ∈ (runOps [Op.add wd1]).blocks, sumLen b.records = b.usedBytes) ∧
      (∀ b ∈ (runOps [Op.add wd1]).blocks, b.usedBytes ≤ b.blockSize) :=
  ⟨by decide, C2_used_bytes_accounting.1 [Op.add wd1],
    C2_used_bytes_accounting.2 [Op.add wd1] (by decide)⟩

/-- C3 (counterexample): on the one-entry index `(5, block 0)`, looking
up `6` (a key exceeding every highest key) makes `findBlock` return the
`-1` sentinel, not the id `0` of the block with the globally highest
key — so the sentinel is not returned only on an empty index. -/
theorem C3_counterexample :
    simpleFindBlock [5] [0] 6 = -1 ∧ simpleFindBlock [5] [0] 6 ≠ 0 := by
  have h : simpleFindBlock [5] [0] 6 = -1 := by
    rw [simpleFindBlock]
    exact findBlockLoop_none (by decide) 1 0 0 (by decide) (by decide) (by decide)
  exact ⟨h, by rw [h]; decide⟩

/-- C3 (amended): on a sorted index, `simpleIndex::findBlock` returns
the RBN of the left-most entry whose key is `>=` the lookup key, and
returns `-1` both when the index is empty and when the lookup key
exceeds every key (it never falls back to the last block); the
exceeds-all fallback to the rightmost child exists only in the root
dispatch of `BPlusTree::Search`, which picks the last entry when no
entry key is `>=` the search key. -/
theorem C3_findBlock_leftmost :
    (∀ (keys : List Nat) (rbns : List Int) (k : Nat),
        keys.Sorted (· ≤ ·) → keys.length = rbns.length →
        simpleFindBlock keys rbns k = findBlockSpec k keys rbns) ∧
      (∀ (k : Key) (es : List (Key × Int)) (h : es ≠ []),
        (∀ x ∈ es, ¬ k ≤ x.1) → chooseTarget k es = (es.getLast h).2) :=
  ⟨fun _ _ _ hs hlen => simpleFindBlock_eq_spec hs hlen,
    fun _ _ h hall => chooseTarget_of_all_lt h hall⟩

/-- C3 (witness): the characterization applied to the index
`[(3,0),(5,1),(9,2)]` with lookup key `4`, and the root-dispatch
fallback applied to a one-entry root with an exceeding key. -/
theorem C3_witness :
    (([3, 5, 9] : List Nat).Sorted (· ≤ ·) ∧
        ([3, 5, 9] : List Nat).length = ([0, 1, 2] : List Int).length) ∧
      simpleFindBlock [3, 5, 9] [0, 1, 2] 4 = findBlockSpec 4 [3, 5, 9] [0, 1, 2] ∧
      ((∀ x ∈ [((['5'] : Key), (0 : Int))], ¬ (['6'] : Key) ≤ x.1) ∧
        chooseTarget ['6'] [((['5'] : Key), (0 : Int))] =
          ([((['5'] : Key), (0 : Int))].getLast (by simp)).2) :=
  ⟨⟨by decide, rfl⟩,
    C3_findBlock_leftmost.1 [3, 5, 9] [0, 1, 2] 4 (by decide) rfl,
    by decide,
    C3_findBlock_leftmost.2 ['6'] [((['5'] : Key), (0 : Int))] (by simp) (by decide)⟩

/-- C4 (code evaluated at the failing input): `Block::AddRecord` on a
block whose 512 bytes are fully used still returns `true` and appends
(record count grows to 2, `usedBytes` exceeds `blockSize`), against
both the claim and `Block.h`'s own documentation ("false if
insufficient space"); the boundary behaviour the claim ascribes to the
add operation lives in `Block::HasSpace`, which does accept an
exact-fit record and reject one byte more. -/
theorem C4_addRecord_ignores_capacity :
    (fullBlk.AddRecord ['y']).2 = true ∧
      (fullBlk.AddRecord ['y']).1.records.length = 2 ∧
      fullBlk.blockSize < (fullBlk.AddRecord ['y']).1.usedBytes ∧
      nearBlk.HasSpace (List.replicate 12 'z') = true ∧
      nearBlk.HasSpace (List.replicate 13 'z') = false := by
  decide

/-- C5: under `Insert`-only population every block's records are
non-decreasing by extracted key, and `Block::InsertSorted` places the
new record exactly before the first existing record whose key is not
less than the new key (hence before equal keys). -/
theorem C5_sorted_invariant :
    (∀ ops : List Op, InsertOnly ops →
        ∀ b ∈ (runOps ops).blocks, b.records.Sorted recLe) ∧
      (∀ (b : Block) (rec : Rec),
        (b.InsertSorted rec).records =
          (b.records.takeWhile fun x => decide (extractKey x < extractKey rec)) ++
            rec :: (b.records.dropWhile fun x =>
              decide (extractKey x < extractKey rec))) :=
  ⟨fun _ h b hb => ((GoodBlocks_runOps h).1 b hb).2,
    fun b rec => by rw [InsertSorted_records, insertSortedRecs_eq_takeWhile]⟩

/-- C5 (witness): the sorted invariant applied to a two-insert history
given in descending key order. -/
theorem C5_witness :
    InsertOnly [Op.ins wIns2, Op.ins wIns1] ∧
      ∀ b ∈ (runOps [Op.ins wIns2, Op.ins wIns1]).blocks,
        b.records.Sorted recLe :=
  ⟨by decide, C5_sorted_invariant.1 [Op.ins wIns2, Op.ins wIns1] (by decide)⟩

/-- C6: `BlockedSequenceSet::Insert` sorted-inserts into the first
block (in storage order) that is empty or whose highest key is `>=`
the record's key; when no block qualifies it inserts sorted into the
last block, first creating a fresh 512-byte block when the set is
empty or the last block lacks space. -/
theorem C6_insert_placement :
    (∀ (rec : Rec) (l1 : List Block) (b : Block) (l2 : List Block),
        (∀ x ∈ l1, ¬(x.GetRecordCount = 0 ∨ extractKey rec ≤ x.getHighestKey)) →
        (b.GetRecordCount = 0 ∨ extractKey rec ≤ b.getHighestKey) →
        BlockedSequenceSet.Insert ⟨l1 ++ b :: l2⟩ rec =
          ⟨l1 ++ b.InsertSorted rec :: l2⟩) ∧
      (∀ rec : Rec, BlockedSequenceSet.Insert ⟨[]⟩ rec =
        ⟨[(Block.make 0 512).InsertSorted rec]⟩) ∧
      (∀ (rec : Rec) (bs : List Block) (hne : bs ≠ []),
        (∀ x ∈ bs, ¬(x.GetRecordCount = 0 ∨ extractKey rec ≤ x.getHighestKey)) →
        (bs.getLast hne).HasSpace rec = false →
        BlockedSequenceSet.Insert ⟨bs⟩ rec =
          ⟨bs ++ [(Block.make bs.length 512).InsertSorted rec]⟩) ∧
      (∀ (rec : Rec) (bs : List Block) (hne : bs ≠ []),
        (∀ x ∈ bs, ¬(x.GetRecordCount = 0 ∨ extractKey rec ≤ x.getHighestKey)) →
        (bs.getLast hne).HasSpace rec = true →
        BlockedSequenceSet.Insert ⟨bs⟩ rec =
          ⟨bs.dropLast ++ [(bs.getLast hne).InsertSorted rec]⟩) := by
  refine ⟨?_, Insert_nil, ?_, ?_⟩
  · intro rec l1 b l2 hl1 hb
    have hm : insertIntoBlocks (extractKey rec) rec (l1 ++ b :: l2) =
        some (l1 ++ b.InsertSorted rec :: l2) :=
      insertIntoBlocks_eq_some.2 ⟨l1, b, l2, rfl, rfl, hb, hl1⟩
    simp only [BlockedSequenceSet.Insert, hm]
  · intro rec bs hne hall hspace
    exact Insert_none_noSpace hne (insertIntoBlocks_eq_none.2 hall) hspace
  · intro rec bs hne hall hspace
    exact Insert_none_hasSpace hne (insertIntoBlocks_eq_none.2 hall) hspace

/-- C6 (witness): the spec's overflow scenario — with keys `2` and `3`
already split over blocks 0 and 1, inserting a record with the
globally smallest key `1` lands (sorted) in block 0, not in the last
block. -/
theorem C6_witness :
    ((∀ x ∈ ([] : List Block),
        ¬(x.GetRecordCount = 0 ∨ extractKey wSmall ≤ x.getHighestKey)) ∧
      (wb0.GetRecordCount = 0 ∨ extractKey wSmall ≤ wb0.getHighestKey)) ∧
      ovState2.Insert wSmall = ⟨[] ++ wb0.InsertSorted wSmall :: [wb1]⟩ := by
  refine ⟨⟨by simp, by decide⟩, ?_⟩
  have h := C6_insert_placement.1 wSmall [] wb0 [wb1] (by simp) (by decide)
  rw [show ovState2 = (⟨[] ++ wb0 :: [wb1]⟩ : BlockedSequenceSet) from by decide]
  exact h

/-- C7 (counterexample): after the bulk-load history `cxOps` (which
leaves block 0 unsorted), inserting a second record with key `10` via
`Insert` places it in block 1, and the subsequent `Search` for `"10"`
returns the old record from block 0, not the inserted one. -/
theorem C7_counterexample :
    (cxState.Insert cxr4).Search (extractKey cxr4) = some cxr1 ∧ cxr1 ≠ cxr4 := by
  refine ⟨by decide, by decide⟩

/-- C7 (amended): for every set populated only through `Insert`,
searching the key of a just-inserted record (before any further
mutation) returns exactly that record. -/
theorem C7_round_trip (ops : List Op) (rec : Rec) (h : InsertOnly ops) :
    ((runOps ops).Insert rec).Search (extractKey rec) = some rec :=
  Search_Insert_eq (GoodBlocks_runOps h) rec

/-- C7 (witness): the round trip applied to a one-insert history. -/
theorem C7_witness :
    InsertOnly wInsOps ∧
      ((runOps wInsOps).Insert wIns2).Search (extractKey wIns2) = some wIns2 :=
  ⟨by decide, C7_round_trip wInsOps wIns2 (by decide)⟩

/-- C8: deleting a key matched by no stored record returns `false` and
leaves the whole state — every block's records, count and
`usedBytes` — unchanged. -/
theorem C8_delete_absent (s : BlockedSequenceSet) (k : Key)
    (h : ∀ b ∈ s.blocks, ∀ r ∈ b.records, extractKey r ≠ k) :
    s.Delete k = (false, s) :=
  Delete_absent h

/-- C8 (witness): deleting the absent key `"9"` from a populated
state. -/
theorem C8_witness :
    (∀ b ∈ dState.blocks, ∀ r ∈ b.records, extractKey r ≠ key9) ∧
      dState.Delete key9 = (false, dState) :=
  ⟨by decide, C8_delete_absent dState key9 (by decide)⟩

/-- C9: after every sequence of `AddRecord` and `Insert` operations,
the block at position `i` of the collection has RBN `i`: new blocks get
RBN equal to the current block count and are appended, and no operation
removes a block or renumbers one. -/
theorem C9_rbn_equals_position (ops : List Op)
    (_h : ∀ op ∈ ops, op.isDel = false) :
    ∀ (i : Nat) (hi : i < (runOps ops).blocks.length),
      ((runOps ops).blocks.get ⟨i, hi⟩).RBN = i := by
  intro i hi
  have hg := rbnFrom_get (rbnFrom_runOps ops) i hi
  rw [hg]
  omega

/-- C9 (witness): position/RBN agreement on a mixed add/insert
history. -/
theorem C9_witness :
    (∀ op ∈ [Op.add wd1, Op.ins wIns2], op.isDel = false) ∧
      (((runOps [Op.add wd1, Op.ins wIns2]).blocks.get
        ⟨0, by decide⟩).RBN = 0) :=
  ⟨by decide, C9_rbn_equals_position [Op.add wd1, Op.ins wIns2] (by decide) 0 (by decide)⟩

/-- C10: when some stored record matches the key, `Delete` removes
exactly the first matching record of the first block (in storage
order) containing a match, decrements that block's `usedBytes` by that
record's length, returns `true`, and leaves every other record and
every other block unchanged. -/
theorem C10_delete_first_match (s : BlockedSequenceSet) (k : Key)
    (l1 : List Block) (c : Block) (l2 : List Block)
    (r1s : List Rec) (rm : Rec) (r2s : List Rec)
    (hsplit : s.blocks = l1 ++ c :: l2)
    (hcrec : c.records = r1s ++ rm :: r2s)
    (hl1 : ∀ x ∈ l1, ∀ r ∈ x.records, extractKey r ≠ k)
    (hr1s : ∀ r ∈ r1s, extractKey r ≠ k)
    (hrm : extractKey rm = k) :
    s.Delete k = (true,
      ⟨l1 ++
        { c with
          records := r1s ++ r2s
          usedBytes := c.usedBytes - rm.length } :: l2⟩) := by
  obtain ⟨bs⟩ := s
  simp only at hsplit
  subst hsplit
  have hdrec : deleteRecs k c.records = some (r1s ++ r2s, rm.length) := by
    rw [hcrec]
    exact deleteRecs_split hrm r1s r2s hr1s
  have hcdel : c.DeleteRecord k =
      ({ c with
         records := r1s ++ r2s
         usedBytes := c.usedBytes - rm.length }, true) := by
    simp [Block.DeleteRecord, hdrec]
  have hm : deleteFromBlocks k (l1 ++ c :: l2) =
      some (l1 ++ (c.DeleteRecord k).1 :: l2) :=
    deleteFromBlocks_eq_some.2 ⟨l1, c, l2, rfl, rfl, by rw [hcdel],
      fun x hx => by rw [DeleteRecord_absent (hl1 x hx)]⟩
  simp only [BlockedSequenceSet.Delete, hm, hcdel]

/-- C10 (witness): a block holding `1,a`, `2,b`, `2,c`; deleting key
`"2"` removes only `2,b` (the first match), returns `true`, and keeps
`1,a` and `2,c`. -/
theorem C10_witness :
    (dState.blocks = [] ++ dBlk :: [] ∧ dBlk.records = [wd1] ++ wd2 :: [wd3] ∧
        extractKey wd2 = key2) ∧
      dState.Delete key2 = (true,
        ⟨[] ++
          { dBlk with
            records := [wd1] ++ [wd3]
            usedBytes := dBlk.usedBytes - wd2.length } :: []⟩) :=
  ⟨⟨by decide, by decide, by decide⟩,
    C10_delete_first_match dState key2 [] dBlk [] [wd1] wd2 [wd3]
      (by decide) (by decide) (by decide) (by decide) (by decide)⟩
